import Mathlib

/-!
Verification of the IAM General Context Assessment relay service (`main.py`).

The development shallowly embeds the service's single request-handling flow:

* `Yaml` — the in-memory document values handled by the service
  (the Document Codec's mapping structure, with text keys);
* `cleanReply` — the fence-marker cleaning applied to the model reply
  (`raw_output.replace("```yaml", "").replace("```", "").strip()`);
* `decode` / `encode` — the Document Codec (block-style text format);
* `pyMember` / `pyGetItem` — the dynamic-language membership and
  subscript operations used on the decoded inbound payload;
* `process_with_groq` — the Response Interpreter;
* `assess_question` — the Request Handler, including its outer
  catch-all that rewraps any raised error (the explicit 400 included)
  into a generic 500 failure.

The upstream completion call is modelled as an oracle from the composed
user prompt to an outcome (a raised transport/extraction error, or a
response with a status code, body text and extracted message content).
-/

set_option maxHeartbeats 1000000

namespace IAMRelay

/-- The in-memory document values produced and consumed by the Document
Codec: null, booleans, integers, text scalars, sequences and mappings
(mappings keep insertion order as a list of key/value pairs; keys are
modelled as text). -/
inductive Yaml where
  | null : Yaml
  | bool (b : Bool) : Yaml
  | int (n : Int) : Yaml
  | str (s : String) : Yaml
  | seq (xs : List Yaml) : Yaml
  | map (kvs : List (String × Yaml)) : Yaml

mutual

/-- Structural equality test on document values (the dynamic language's
`==` restricted to the value shapes the codec produces). -/
def Yaml.beq : Yaml → Yaml → Bool
  | .null, .null => true
  | .bool a, .bool b => a == b
  | .int a, .int b => a == b
  | .str a, .str b => a == b
  | .seq xs, .seq ys => Yaml.beqList xs ys
  | .map a, .map b => Yaml.beqEntries a b
  | _, _ => false

/-- Elementwise `Yaml.beq` on sequences. -/
def Yaml.beqList : List Yaml → List Yaml → Bool
  | [], [] => true
  | x :: xs, y :: ys => Yaml.beq x y && Yaml.beqList xs ys
  | _, _ => false

/-- Entrywise `Yaml.beq` on mapping entries. -/
def Yaml.beqEntries : List (String × Yaml) → List (String × Yaml) → Bool
  | [], [] => true
  | x :: xs, y :: ys => x.1 == y.1 && Yaml.beq x.2 y.2 && Yaml.beqEntries xs ys
  | _, _ => false

end

instance : BEq Yaml := ⟨Yaml.beq⟩

/-- Whether a document value is a mapping (`isinstance(v, dict)`). -/
def Yaml.isMap : Yaml → Bool
  | .map _ => true
  | _ => false

/-- Look up a top-level key in a mapping, later entries winning (the
dynamic language's dictionaries keep one binding per key, built
back-to-front here to model later-entry overwrite). -/
def Yaml.get : Yaml → String → Option Yaml
  | .map kvs, k =>
      match kvs.reverse.find? (fun kv => kv.1 == k) with
      | some kv => some kv.2
      | none => none
  | _, _ => none

/-- Top-level key list of a mapping, in insertion order. -/
def Yaml.keys : Yaml → Option (List String)
  | .map kvs => some (kvs.map Prod.fst)
  | _ => none

-- ---------------------------------------------------------------
-- Character-level utilities shared by the cleaner and the codec
-- ---------------------------------------------------------------

/-- The whitespace set stripped by the cleaning step (`str.strip()`),
restricted to the characters that occur in this system's texts. -/
def isWs (c : Char) : Bool :=
  c == ' ' || c == '\t' || c == '\n' || c == '\r'

/-- Strip leading and trailing whitespace from a character list
(`str.strip()`). -/
def stripChars (l : List Char) : List Char :=
  ((l.dropWhile isWs).reverse.dropWhile isWs).reverse

/-- Remove every occurrence of the three-backtick fence marker, scanning
left to right (`str.replace("```", "")`). -/
def removeTicks : List Char → List Char
  | '\x60' :: '\x60' :: '\x60' :: rest => removeTicks rest
  | c :: rest => c :: removeTicks rest
  | [] => []

/-- Remove every occurrence of the language-tagged fence marker, scanning
left to right (`str.replace("```yaml", "")`). -/
def removeTicksYaml : List Char → List Char
  | '\x60' :: '\x60' :: '\x60' :: 'y' :: 'a' :: 'm' :: 'l' :: rest => removeTicksYaml rest
  | c :: rest => c :: removeTicksYaml rest
  | [] => []

/-- The cleaning applied to the raw model reply before decoding
(`raw_output.replace("```yaml", "").replace("```", "").strip()`). -/
def cleanReply (s : String) : String :=
  ⟨stripChars (removeTicks (removeTicksYaml s.data))⟩

/-- Split a character list into lines at newline characters. Always
returns at least one (possibly empty) line. -/
def splitNL : List Char → List (List Char)
  | [] => [[]]
  | '\n' :: rest => [] :: splitNL rest
  | c :: rest =>
      match splitNL rest with
      | l :: ls => (c :: l) :: ls
      | [] => [[c]]

/-- Join lines with newline separators: left inverse material for
`splitNL`. -/
def joinNL : List (List Char) → List Char
  | [] => []
  | [l] => l
  | l :: ls => l ++ '\n' :: joinNL ls

/-- Drop trailing empty lines of a document (the decoder ignores a final
newline and blank tail lines). -/
def dropTailNils (ls : List (List Char)) : List (List Char) :=
  (ls.reverse.dropWhile List.isEmpty).reverse

/-- Leading-space count of a line. -/
def indentOf (l : List Char) : Nat :=
  (l.takeWhile (fun c => c == ' ')).length

/-- A line with its leading spaces removed. -/
def contentOf (l : List Char) : List Char :=
  l.dropWhile (fun c => c == ' ')

/-- Whether a (deindented) line is a block-sequence item line. -/
def startsDash : List Char → Bool
  | '-' :: ' ' :: _ => true
  | _ => false

/-- The item text of a block-sequence item line (after the dash marker). -/
def dropDash : List Char → List Char
  | '-' :: ' ' :: rest => rest
  | l => l

/-- Split a mapping-entry line at its first key/value separator
(colon followed by space), returning the key part and the value part. -/
def splitColonSp : List Char → Option (List Char × List Char)
  | [] => none
  | ':' :: ' ' :: rest => some ([], rest)
  | c :: rest =>
      match splitColonSp rest with
      | some (k, v) => some (c :: k, v)
      | none => none

/-- Whether a (nonempty) line ends with a colon, i.e. opens a nested
block value. -/
def endsColon (l : List Char) : Bool :=
  match l.reverse with
  | ':' :: _ => true
  | _ => false

/-- Whether a character list contains the key/value separator (a colon
followed by a space). -/
def hasColonSp : List Char → Bool
  | ':' :: ' ' :: _ => true
  | _ :: r => hasColonSp r
  | [] => false

/-- Whether a character list starts with a space. -/
def startsSpace : List Char → Bool
  | ' ' :: _ => true
  | _ => false

/-- Whether a character list starts with a double quote. -/
def quoteLead : List Char → Bool
  | '"' :: _ => true
  | _ => false

-- ---------------------------------------------------------------
-- Document Codec: scalars
-- ---------------------------------------------------------------

/-- Read an optionally signed decimal integer literal. -/
def readInt? (l : List Char) : Option Int :=
  match l with
  | '-' :: rest =>
      if rest ≠ [] && rest.all Char.isDigit then
        some (-(Int.ofNat (natOfDigits rest)))
      else none
  | _ =>
      if l ≠ [] && l.all Char.isDigit then some (Int.ofNat (natOfDigits l))
      else none
where
  /-- Most-significant-first decimal accumulation. -/
  natOfDigits (ds : List Char) : Nat :=
    ds.foldl (fun acc c => acc * 10 + (c.toNat - '0'.toNat)) 0

/-- The decimal digit character for a value below ten. -/
def digitCh : Nat → Char
  | 0 => '0'
  | 1 => '1'
  | 2 => '2'
  | 3 => '3'
  | 4 => '4'
  | 5 => '5'
  | 6 => '6'
  | 7 => '7'
  | 8 => '8'
  | _ => '9'

/-- Decimal digit characters of a natural number, most significant
first. -/
def natDigits (n : Nat) : List Char :=
  if n < 10 then [digitCh n]
  else natDigits (n / 10) ++ [digitCh (n % 10)]
termination_by n
decreasing_by exact Nat.div_lt_self (by omega) (by omega)

/-- Decimal rendering of an integer (the encoder's integer style). -/
def encInt (n : Int) : List Char :=
  if n < 0 then '-' :: natDigits n.natAbs else natDigits n.toNat

/-- Escape a text scalar for the double-quoted style: newlines, double
quotes and backslashes are escaped, all other characters are kept. -/
def escapeChars : List Char → List Char
  | [] => []
  | '\n' :: r => '\\' :: 'n' :: escapeChars r
  | '"' :: r => '\\' :: '"' :: escapeChars r
  | '\\' :: r => '\\' :: '\\' :: escapeChars r
  | c :: r => c :: escapeChars r

/-- Undo `escapeChars`; fails on a stray backslash or an unescaped
double quote. -/
def unescapeChars : List Char → Option (List Char)
  | [] => some []
  | '\\' :: 'n' :: r => (unescapeChars r).map (fun s => '\n' :: s)
  | '\\' :: '"' :: r => (unescapeChars r).map (fun s => '"' :: s)
  | '\\' :: '\\' :: r => (unescapeChars r).map (fun s => '\\' :: s)
  | '\\' :: _ => none
  | '"' :: _ => none
  | c :: r => (unescapeChars r).map (fun s => c :: s)

/-- Read a double-quoted scalar token: a leading quote, an escaped body
and a closing quote. -/
def parseQuoted (c : List Char) : Option (List Char) :=
  match c with
  | '"' :: rest =>
      if rest ≠ [] && rest.getLast? == some '"' then unescapeChars rest.dropLast
      else none
  | _ => none

/-- Whether a text scalar can be emitted in plain (unquoted) style and
read back unchanged: nonempty, newline-free, not quote-led, and not
mistakable for a boolean, null or integer literal. -/
def plainOk (s : List Char) : Bool :=
  !s.isEmpty && s.all (fun c => c != '\n')
    && s ≠ "true".data && s ≠ "false".data && s ≠ "null".data
    && (readInt? s).isNone && !quoteLead s

/-- Read a scalar token: the boolean and null literals, decimal integer
literals, double-quoted text, and otherwise raw text. -/
def readScalar (l : List Char) : Yaml :=
  if l = "true".data then .bool true
  else if l = "false".data then .bool false
  else if l = "null".data then .null
  else
    match readInt? l with
    | some n => .int n
    | none =>
        match parseQuoted l with
        | some s => .str ⟨s⟩
        | none => .str ⟨l⟩

/-- Render a scalar value as a token: literals and integers plainly,
text scalars plainly when possible and double-quoted otherwise. -/
def encScalar : Yaml → List Char
  | .null => "null".data
  | .bool true => "true".data
  | .bool false => "false".data
  | .int n => encInt n
  | .str s => if plainOk s.data then s.data else '"' :: escapeChars s.data ++ ['"']
  | .seq _ => []
  | .map _ => []

-- ---------------------------------------------------------------
-- Document Codec: block parser
-- ---------------------------------------------------------------

/-- Parse consecutive block-sequence item lines at indent `i`,
returning the items and the unconsumed lines. -/
def parseSeqItems (i : Nat) : List (List Char) → (List Yaml × List (List Char))
  | [] => ([], [])
  | l :: rest =>
      if indentOf l = i && startsDash (contentOf l) then
        let p := parseSeqItems i rest
        (readScalar (dropDash (contentOf l)) :: p.1, p.2)
      else ([], l :: rest)

/-- Parse consecutive block-mapping entry lines at indent `i`: plain
`key: value` entries, `key:` openers followed by a nested mapping
indented two further columns, and `key:` openers followed by sequence
items at the same indent. Stops at a line of smaller indent; fails on
any other shape. `fuel` bounds the recursion and decreases at every
call. -/
def parseMapEntries : Nat → Nat → List (List Char) →
    Option (List (String × Yaml) × List (List Char))
  | 0, _, _ => none
  | _ + 1, _, [] => some ([], [])
  | fuel + 1, i, l :: rest =>
      if indentOf l < i then some ([], l :: rest)
      else if indentOf l ≠ i then none
      else
        let c := contentOf l
        if startsDash c then none
        else match splitColonSp c with
        | some (k, v) =>
            if k = [] then none
            else
              match parseMapEntries fuel i rest with
              | some (kvs, r) => some ((⟨k⟩, readScalar v) :: kvs, r)
              | none => none
        | none =>
            if endsColon c && c.length ≥ 2 then
              let k : String := ⟨c.dropLast⟩
              match rest with
              | [] => none
              | l2 :: _ =>
                  if indentOf l2 = i && startsDash (contentOf l2) then
                    let p := parseSeqItems i rest
                    match parseMapEntries fuel i p.2 with
                    | some (kvs, r) => some ((k, .seq p.1) :: kvs, r)
                    | none => none
                  else if indentOf l2 = i + 2 then
                    match parseMapEntries fuel (i + 2) rest with
                    | some ([], _) => none
                    | some (kv :: kvs, r) =>
                        match parseMapEntries fuel i r with
                        | some (kvs2, r2) => some ((k, .map (kv :: kvs)) :: kvs2, r2)
                        | none => none
                    | none => none
                  else none
            else none

/-- The Document Codec's decoder (`yaml.safe_load`): empty input decodes
to null; a single top-level line without mapping or sequence structure
decodes to a scalar; otherwise a block sequence or block mapping is
parsed, consuming every line. -/
def decode (s : String) : Except String Yaml :=
  let ls := dropTailNils (splitNL s.data)
  match ls with
  | [] => .ok .null
  | l :: _ =>
      if indentOf l ≠ 0 then .error "unexpected indent at document start"
      else if startsDash (contentOf l) then
        let p := parseSeqItems 0 ls
        match p.2 with
        | [] => .ok (.seq p.1)
        | _ :: _ => .error "trailing lines after block sequence"
      else if (splitColonSp l).isSome || endsColon l then
        match parseMapEntries (ls.length + 1) 0 ls with
        | some (kvs, []) => .ok (.map kvs)
        | some (_, _ :: _) => .error "trailing lines after block mapping"
        | none => .error "could not parse block mapping"
      else
        match ls with
        | [_] => .ok (readScalar l)
        | _ => .error "could not parse multi-line scalar"

-- ---------------------------------------------------------------
-- Document Codec: block encoder
-- ---------------------------------------------------------------

/-- An indentation pad of `i` spaces. -/
def pad (i : Nat) : List Char :=
  List.replicate i ' '

/-- Encode the entries of a mapping at indent `i` as lines
(`yaml.dump` with insertion-order keys and block style): scalar values
inline after `key: `, nonempty nested mappings under a `key:` opener
indented two further columns, sequences as dash items at the key's
indent, and empty containers in flow style. -/
def encEntries (i : Nat) : List (String × Yaml) → List (List Char)
  | [] => []
  | (k, v) :: rest =>
      (match v with
       | .map [] => [pad i ++ k.data ++ (": {}").data]
       | .map (kv :: kvs) => (pad i ++ k.data ++ [':']) :: encEntries (i + 2) (kv :: kvs)
       | .seq [] => [pad i ++ k.data ++ (": []").data]
       | .seq (x :: xs) =>
           (pad i ++ k.data ++ [':']) ::
             (x :: xs).map (fun y => pad i ++ '-' :: ' ' :: encScalar y)
       | v2 => [pad i ++ k.data ++ ':' :: ' ' :: encScalar v2])
      ++ encEntries i rest

/-- The Document Codec's encoder (`yaml.dump(..., sort_keys=False,
default_flow_style=False)`) for the document values this system emits:
block style, keys in insertion order, with a trailing newline. -/
def encode : Yaml → String
  | .map [] => "{}\n"
  | .map (kv :: kvs) => ⟨joinNL (encEntries 0 (kv :: kvs) ++ [[]])⟩
  | .seq xs => ⟨joinNL ((xs.map (fun y => '-' :: ' ' :: encScalar y)) ++ [[]])⟩
  | v => ⟨encScalar v ++ ['\n']⟩

-- ---------------------------------------------------------------
-- Dynamic-language operations on decoded values
-- ---------------------------------------------------------------

/-- The outcome of an operation in the dynamic host language: a value,
or a raised error carrying its message. -/
inductive Py (α : Type) where
  | ok (a : α) : Py α
  | exn (msg : String) : Py α
  deriving DecidableEq, Repr

/-- The membership test `key in value`: key lookup on mappings,
substring test on text, element test on sequences; raises a type error
on null, booleans and numbers (not iterable). -/
def pyMember (needle : String) : Yaml → Py Bool
  | .map kvs => .ok (kvs.any (fun kv => kv.1 == needle))
  | .str s => .ok (hasSubstr needle.data s.data)
  | .seq xs => .ok (xs.any (fun x => Yaml.beq x (.str needle)))
  | .null => .exn "argument of type 'NoneType' is not iterable"
  | .bool _ => .exn "argument of type 'bool' is not iterable"
  | .int _ => .exn "argument of type 'int' is not iterable"
where
  /-- Substring occurrence test. -/
  hasSubstr (pat : List Char) : List Char → Bool
    | [] => pat.isEmpty
    | c :: cs => pat.isPrefixOf (c :: cs) || hasSubstr pat cs

/-- The subscript `value[key]` with a text key: lookup on mappings
(raising a key error when absent); raises a type error on every other
shape. -/
def pyGetItem : Yaml → String → Py Yaml
  | .map kvs, k =>
      match kvs.reverse.find? (fun kv => kv.1 == k) with
      | some kv => .ok kv.2
      | none => .exn ("KeyError: " ++ k)
  | .str _, _ => .exn "string indices must be integers"
  | .seq _, _ => .exn "list indices must be integers or slices, not str"
  | .null, _ => .exn "'NoneType' object is not subscriptable"
  | .bool _, _ => .exn "'bool' object is not subscriptable"
  | .int _, _ => .exn "'int' object is not subscriptable"

-- ---------------------------------------------------------------
-- Response Interpreter (`process_with_groq`)
-- ---------------------------------------------------------------

/-- The outcome of the single outbound completion call: either the call
raised (transport failure, undecodable response body, or missing
`choices[0].message.content` shape) with an error message, or it
returned a status code, the response body text, and the extracted
message content. -/
inductive UpstreamOutcome where
  | raised (msg : String) : UpstreamOutcome
  | reply (status : Nat) (body : String) (content : String) : UpstreamOutcome

/-- The fixed fallback Assessment Document (the dictionary literal built
in `process_with_groq`'s handler), parameterised by the caught error's
message. -/
def fallbackDoc (msg : String) : Yaml :=
  .map
    [ ("gen_context_update", .map
        [ ("governance_maturity_signal", .str "Unknown"),
          ("certification_integration", .map
            [ ("authoritative_data_used", .bool false),
              ("role_alignment_enforced", .bool false) ]),
          ("exception_handling", .map
            [ ("risk_assessed", .bool false),
              ("documented", .bool false) ]),
          ("audit_readiness_level", .str "Low") ]),
      ("domain_influence", .map
        [ ("access_governance", .str "Unable to determine due to processing error"),
          ("monitoring_and_audit", .str "Unable to determine due to processing error") ]),
      ("assessment_rationale", .seq [.str ("Agent processing error: " ++ msg)]),
      ("confidence_level", .str "Low") ]

/-- The user-turn prompt text: the Document Codec encoding of
`{"general_question": payload}` with insertion-order keys. -/
def userPrompt (q : Yaml) : String :=
  encode (.map [("general_question", q)])

/-- The Response Interpreter (`process_with_groq`): composes the user
prompt, consults the upstream oracle, raises on a non-200 status, cleans
and decodes the reply, requires a mapping, and absorbs every raised
error into the fixed fallback document. -/
def process_with_groq (q : Yaml) (upstream : String → UpstreamOutcome) : Yaml :=
  match upstream (userPrompt q) with
  | .raised msg => fallbackDoc msg
  | .reply status body content =>
      if status ≠ 200 then fallbackDoc ("Groq API error: " ++ body)
      else
        match decode (cleanReply content) with
        | .error e => fallbackDoc e
        | .ok v => if v.isMap then v else fallbackDoc "LLM response is not valid YAML"

-- ---------------------------------------------------------------
-- Request Handler (`assess_question`)
-- ---------------------------------------------------------------

/-- The inbound request model: a user name and the question document as
text. -/
structure AgentRequest where
  user_name : String
  general_question : String

/-- The HTTP-level outcome of one `/assess` call: a success body, or an
error response with a status code and detail text. -/
inductive HandlerOutcome where
  | success (body : String) : HandlerOutcome
  | httpError (status : Nat) (detail : String) : HandlerOutcome
  deriving DecidableEq, Repr

/-- The detail text produced when the handler's catch-all rewraps the
explicit missing-key client error (`str` of an HTTP exception is
`"<status>: <detail>"`). -/
def missingKeyDetail : String :=
  "400: Missing general_question key"

/-- The Request Handler (`assess_question`): decodes the inbound
question text, tests for the `general_question` key, extracts the inner
payload, runs the Response Interpreter, and encodes the result. Every
error raised inside the handler's single `try` — the explicit 400
missing-key exception included — is caught by the trailing catch-all and
rewrapped as a 500 failure whose detail is the caught error's message.
The second component records the user prompt of the outbound completion
call when one was made. -/
def assess_question (req : AgentRequest) (upstream : String → UpstreamOutcome) :
    HandlerOutcome × Option String :=
  match decode req.general_question with
  | .error e => (.httpError 500 e, none)
  | .ok w =>
      match pyMember "general_question" w with
      | .exn e => (.httpError 500 e, none)
      | .ok false => (.httpError 500 missingKeyDetail, none)
      | .ok true =>
          match pyGetItem w "general_question" with
          | .exn e => (.httpError 500 e, none)
          | .ok q =>
              (.success (encode (process_with_groq q upstream)), some (userPrompt q))

-- ---------------------------------------------------------------
-- Shape predicates used by the claims
-- ---------------------------------------------------------------

/-- The four required top-level sections of an Assessment Document, in
the order the fallback document and the instructed output template list
them. -/
def fourKeys : List String :=
  ["gen_context_update", "domain_influence", "assessment_rationale", "confidence_level"]

/-- Whether a document is a mapping whose top-level keys are exactly the
four required sections (each present, and no others). -/
def hasFourKeys (d : Yaml) : Bool :=
  match d with
  | .map kvs =>
      let ks := kvs.map Prod.fst
      ks.length == 4 && fourKeys.all (fun k => ks.contains k)
  | _ => false

-- ---------------------------------------------------------------
-- Well-formed documents (the plain-scalar block fragment)
-- ---------------------------------------------------------------

/-- A key the block encoder can place on a line and the parser reads
back: nonempty, newline-free, not starting with a space or an item
dash, and without a key/value separator inside it. Every key the
parser itself produces satisfies this. -/
def keyOk (k : String) : Bool :=
  !k.data.isEmpty && k.data.all (fun c => c != '\n')
    && !startsSpace k.data && !startsDash k.data && !hasColonSp k.data

/-- Scalar document values: everything except sequences and mappings.
Every scalar - any text included - is encodable and re-readable, the
double-quoted style covering what plain style cannot. -/
def wfScalar : Yaml → Bool
  | .null => true
  | .bool _ => true
  | .int _ => true
  | .str _ => true
  | _ => false

mutual

/-- A well-formed mapping value: a well-formed scalar, a nonempty
sequence of well-formed scalars, or a nonempty well-formed nested
mapping. -/
def wfVal : Yaml → Bool
  | .seq xs => !xs.isEmpty && wfItems xs
  | .map kvs => !kvs.isEmpty && wfEntries kvs
  | v => wfScalar v

/-- Entrywise well-formedness of mapping entries. -/
def wfEntries : List (String × Yaml) → Bool
  | [] => true
  | kv :: rest => keyOk kv.1 && wfVal kv.2 && wfEntries rest

/-- Itemwise well-formedness of sequence items. -/
def wfItems : List Yaml → Bool
  | [] => true
  | x :: rest => wfScalar x && wfItems rest

end

-- ---------------------------------------------------------------
-- Key extraction from encoded text (for the key-order claim)
-- ---------------------------------------------------------------

/-- The (indent, key) announcement of a line of encoded text: mapping
entry lines and nested-block opener lines announce their key at their
indent; sequence-item lines and all other lines announce nothing. -/
def lineKeyAt (l : List Char) : Option (Nat × String) :=
  if startsDash (contentOf l) then none
  else
    match splitColonSp (contentOf l) with
    | some (k, _) => some (indentOf l, ⟨k⟩)
    | none =>
        if endsColon (contentOf l) && (contentOf l).length ≥ 2 then
          some (indentOf l, ⟨(contentOf l).dropLast⟩)
        else none

/-- All (indent, key) announcements of an encoded document's lines, in
line order. -/
def keyLines (t : String) : List (Nat × String) :=
  (dropTailNils (splitNL t.data)).filterMap lineKeyAt

mutual

/-- The keys a mapping value contributes to the depth-annotated key
sequence: the keys of a nested mapping at the given indent, nothing for
any other value. -/
def flattenKeysVal : Nat → Yaml → List (Nat × String)
  | i, .map kvs => flattenKeys i kvs
  | _, _ => []

/-- The depth-annotated key sequence of a mapping in insertion order:
each entry's key at the block's indent, then recursively the keys of a
nested mapping value two columns deeper, then the following entries. -/
def flattenKeys : Nat → List (String × Yaml) → List (Nat × String)
  | _, [] => []
  | i, (k, v) :: rest =>
      (i, k) :: (flattenKeysVal (i + 2) v ++ flattenKeys i rest)

end

-- ---------------------------------------------------------------
-- Stop conditions for the block parser's continuation lines
-- ---------------------------------------------------------------

/-- Lines at which a block mapping at indent `i` correctly stops:
nothing, or a line of smaller indent. -/
def mapStop (i : Nat) : List (List Char) → Prop
  | [] => True
  | l :: _ => indentOf l < i

/-- Lines at which a block sequence at indent `i` correctly stops:
nothing, or a line that is not an item line at indent `i`. -/
def seqStop (i : Nat) : List (List Char) → Prop
  | [] => True
  | l :: _ => ¬(indentOf l = i ∧ startsDash (contentOf l) = true)

-- ---------------------------------------------------------------
-- Lemmas about the cleaning step
-- ---------------------------------------------------------------

/-- C1, counterexample: when the upstream reply decodes to a mapping
with other keys (here `{foo: 1}`), the Response Interpreter returns it
unmodified, so the returned document does not contain the four required
top-level keys. -/
theorem claim1_counterexample :
    process_with_groq .null (fun _ => .reply 200 "" "foo: 1") = .map [("foo", .int 1)] ∧
    hasFourKeys (.map [("foo", .int 1)]) = false :=
  ⟨rfl, rfl⟩

/-- C1, amended: the Response Interpreter's document has exactly the
four required top-level keys on every failure path (it is then the
fixed fallback document); on a successful decode of the upstream reply
the decoded mapping is returned unmodified, and then the key set is
whatever the reply contained. -/
theorem claim1_keys (q : Yaml) (upstream : String → UpstreamOutcome) :
    hasFourKeys (process_with_groq q upstream) = true ∨
    (∃ body content, upstream (userPrompt q) = .reply 200 body content ∧
      decode (cleanReply content) = .ok (process_with_groq q upstream)) := by
  cases h : upstream (userPrompt q) with
  | raised msg =>
      exact Or.inl (by simp [process_with_groq, h]; rfl)
  | reply status body content =>
      by_cases hs : status = 200
      · subst hs
        cases hd : decode (cleanReply content) with
        | error e => exact Or.inl (by simp [process_with_groq, h, hd]; rfl)
        | ok v =>
            cases hm : v.isMap with
            | true =>
                refine Or.inr ⟨body, content, rfl, ?_⟩
                have hpwg : process_with_groq q upstream = v := by
                  simp [process_with_groq, h, hd, hm]
                rw [hpwg, hd]
            | false =>
                refine Or.inl ?_
                have hpwg : process_with_groq q upstream
                    = fallbackDoc "LLM response is not valid YAML" := by
                  simp [process_with_groq, h, hd, hm]
                rw [hpwg]; rfl
      · refine Or.inl ?_
        have hpwg : process_with_groq q upstream
            = fallbackDoc ("Groq API error: " ++ body) := by
          simp [process_with_groq, h, hs]
        rw [hpwg]; rfl

/-- C5: the Response Interpreter is total over every modelled upstream
outcome and always yields a mapping — either the upstream reply's
decoded mapping (on a 200 status whose cleaned content decodes to a
mapping) or the fixed fallback document. -/
theorem claim5_interpreter_total (q : Yaml) (upstream : String → UpstreamOutcome) :
    (process_with_groq q upstream).isMap = true ∧
    ((∃ msg, process_with_groq q upstream = fallbackDoc msg) ∨
      (∃ body content, upstream (userPrompt q) = .reply 200 body content ∧
        decode (cleanReply content) = .ok (process_with_groq q upstream))) := by
  cases h : upstream (userPrompt q) with
  | raised msg =>
      have hpwg : process_with_groq q upstream = fallbackDoc msg := by
        simp [process_with_groq, h]
      exact ⟨by rw [hpwg]; rfl, Or.inl ⟨msg, hpwg⟩⟩
  | reply status body content =>
      by_cases hs : status = 200
      · subst hs
        cases hd : decode (cleanReply content) with
        | error e =>
            have hpwg : process_with_groq q upstream = fallbackDoc e := by
              simp [process_with_groq, h, hd]
            exact ⟨by rw [hpwg]; rfl, Or.inl ⟨e, hpwg⟩⟩
        | ok v =>
            cases hm : v.isMap with
            | true =>
                have hpwg : process_with_groq q upstream = v := by
                  simp [process_with_groq, h, hd, hm]
                exact ⟨by rw [hpwg]; exact hm,
                  Or.inr ⟨body, content, rfl, by rw [hpwg, hd]⟩⟩
            | false =>
                have hpwg : process_with_groq q upstream
                    = fallbackDoc "LLM response is not valid YAML" := by
                  simp [process_with_groq, h, hd, hm]
                exact ⟨by rw [hpwg]; rfl,
                  Or.inl ⟨"LLM response is not valid YAML", hpwg⟩⟩
      · have hpwg : process_with_groq q upstream
            = fallbackDoc ("Groq API error: " ++ body) := by
          simp [process_with_groq, h, hs]
        exact ⟨by rw [hpwg]; rfl, Or.inl ⟨"Groq API error: " ++ body, hpwg⟩⟩

/-- C6: on any upstream response whose status is not 200 (every
non-success status in particular), the Response Interpreter returns the
fixed fallback document whose rationale is the one-element sequence
`"Agent processing error: Groq API error: " ++ body` and whose
confidence level is `"Low"`. -/
theorem claim6_upstream_status (q : Yaml) (upstream : String → UpstreamOutcome)
    (status : Nat) (body content : String)
    (h : upstream (userPrompt q) = .reply status body content)
    (hs : status ≠ 200) :
    process_with_groq q upstream = fallbackDoc ("Groq API error: " ++ body) ∧
    (process_with_groq q upstream).get "assessment_rationale"
      = some (.seq [.str ("Agent processing error: Groq API error: " ++ body)]) ∧
    (process_with_groq q upstream).get "confidence_level" = some (.str "Low") := by
  have hpwg : process_with_groq q upstream = fallbackDoc ("Groq API error: " ++ body) := by
    simp [process_with_groq, h, hs]
  refine ⟨hpwg, ?_, ?_⟩ <;> rw [hpwg] <;> rfl

/-- C6, witness: a concrete 500-status upstream response with body
`"boom"` yields the fallback document with the prefixed rationale and
low confidence. -/
theorem claim6_witness :
    process_with_groq .null (fun _ => .reply 500 "boom" "")
      = fallbackDoc ("Groq API error: " ++ "boom") ∧
    (process_with_groq .null (fun _ => .reply 500 "boom" "")).get "assessment_rationale"
      = some (.seq [.str ("Agent processing error: Groq API error: " ++ "boom")]) ∧
    (process_with_groq .null (fun _ => .reply 500 "boom" "")).get "confidence_level"
      = some (.str "Low") :=
  claim6_upstream_status .null (fun _ => .reply 500 "boom" "") 500 "boom" "" rfl (by decide)

-- ---------------------------------------------------------------
-- Claim theorems: Request Handler (C2, C4, C9, C10)
-- ---------------------------------------------------------------

/-- C2: evaluation at the failing input. A request whose question text
decodes to a mapping without the `general_question` key is answered
with a 500 failure whose detail is the string form of the swallowed
400 exception — the handler's catch-all rewraps its own explicit 400 —
and no outbound call is attempted. The claim's 4xx-equivalent failure
does not occur. -/
theorem claim2_missing_key_rewrap :
    assess_question ⟨"alice", "other_key: 1"⟩ (fun _ => .raised "net down")
      = (.httpError 500 missingKeyDetail, none) ∧
    missingKeyDetail = "400: Missing general_question key" :=
  ⟨rfl, rfl⟩

/-- C4, counterexample: a request whose question text fails to decode
(here `"a:\nb"`, ill-formed block text) is answered with a generic 500
failure, not the claimed 4xx-equivalent validation failure; no outbound
call is attempted. -/
theorem claim4_counterexample :
    assess_question ⟨"alice", "a:\nb"⟩ (fun _ => .raised "net down")
      = (.httpError 500 "could not parse block mapping", none) ∧
    (500 : Nat) ≠ 400 :=
  ⟨rfl, by decide⟩

/-- C4, amended: a decode failure on the inbound question text is
surfaced as a generic 500 server failure carrying the parse error's
message, and no outbound completion call is attempted. -/
theorem claim4_decode_failure (req : AgentRequest) (upstream : String → UpstreamOutcome)
    (e : String) (h : decode req.general_question = .error e) :
    assess_question req upstream = (.httpError 500 e, none) := by
  simp [assess_question, h]

/-- C4, witness: the amended decode-failure theorem at a concrete
undecodable question text. -/
theorem claim4_witness :
    assess_question ⟨"u", "b:\nc"⟩ (fun _ => .raised "net down")
      = (.httpError 500 "could not parse block mapping", none) :=
  claim4_decode_failure ⟨"u", "b:\nc"⟩ (fun _ => .raised "net down")
    "could not parse block mapping" rfl

/-- C9: noninterference on `user_name` — two requests with the same
question text and the same upstream behaviour receive identical
responses (and identical outbound prompts), whatever their user names. -/
theorem claim9_noninterference (u1 u2 gq : String) (upstream : String → UpstreamOutcome) :
    assess_question ⟨u1, gq⟩ upstream = assess_question ⟨u2, gq⟩ upstream :=
  rfl

/-- C10, counterexample: a question text decoding to a text scalar is a
non-mapping on which the membership test does not raise — it is a
substring test returning false — so the failure arises from the
rewrapped missing-key 400, not from the membership test; the observable
outcome is still a 500 with no outbound call. -/
theorem claim10_counterexample :
    decode "hello" = .ok (.str "hello") ∧
    (Yaml.str "hello").isMap = false ∧
    pyMember "general_question" (.str "hello") = .ok false ∧
    assess_question ⟨"u", "hello"⟩ (fun _ => .raised "net down")
      = (.httpError 500 missingKeyDetail, none) :=
  ⟨rfl, rfl, rfl, rfl⟩

/-- C10, amended: for every question text decoding to a non-mapping the
call fails with a generic 500 — never a 4xx — and no outbound call is
attempted; the membership test itself raises only on null, boolean and
integer results, while on text it is a substring test and on sequences
an element test, the failure then arising from the rewrapped
missing-key error or from text/sequence subscripting. -/
theorem claim10_non_mapping (req : AgentRequest) (upstream : String → UpstreamOutcome)
    (w : Yaml) (h : decode req.general_question = .ok w) (hm : w.isMap = false) :
    ∃ d, assess_question req upstream = (.httpError 500 d, none) := by
  cases w with
  | null =>
      exact ⟨"argument of type 'NoneType' is not iterable",
        by simp [assess_question, h, pyMember]⟩
  | bool b =>
      exact ⟨"argument of type 'bool' is not iterable",
        by simp [assess_question, h, pyMember]⟩
  | int n =>
      exact ⟨"argument of type 'int' is not iterable",
        by simp [assess_question, h, pyMember]⟩
  | str s =>
      cases hsub : pyMember.hasSubstr "general_question".data s.data with
      | false =>
          exact ⟨missingKeyDetail, by simp [assess_question, h, pyMember, hsub]⟩
      | true =>
          exact ⟨"string indices must be integers",
            by simp [assess_question, h, pyMember, hsub, pyGetItem]⟩
  | seq xs =>
      cases hel : xs.any (fun x => Yaml.beq x (.str "general_question")) with
      | false =>
          exact ⟨missingKeyDetail, by simp [assess_question, h, pyMember, hel]⟩
      | true =>
          exact ⟨"list indices must be integers or slices, not str",
            by simp [assess_question, h, pyMember, hel, pyGetItem]⟩
  | map kvs => exact absurd hm (by simp [Yaml.isMap])

/-- C10, witness: the amended non-mapping theorem at a concrete input
decoding to a boolean. -/
theorem claim10_witness :
    ∃ d, assess_question ⟨"u", "true"⟩ (fun _ => .raised "net down")
      = (.httpError 500 d, none) :=
  claim10_non_mapping ⟨"u", "true"⟩ (fun _ => .raised "net down") (.bool true) rfl rfl


-- ---------------------------------------------------------------
-- Codec lemmas: lines, keys and separators
-- ---------------------------------------------------------------

theorem indentOf_space_cons (t : List Char) : indentOf (' ' :: t) = indentOf t + 1 := by
  simp [indentOf, List.takeWhile_cons]

theorem indentOf_cons_ne (c : Char) (t : List Char) (hc : (c == ' ') = false) :
    indentOf (c :: t) = 0 := by
  simp [indentOf, List.takeWhile_cons, hc]

theorem contentOf_space_cons (t : List Char) : contentOf (' ' :: t) = contentOf t := by
  simp [contentOf, List.dropWhile_cons]

theorem contentOf_cons_ne (c : Char) (t : List Char) (hc : (c == ' ') = false) :
    contentOf (c :: t) = c :: t := by
  simp [contentOf, List.dropWhile_cons, hc]

theorem indentOf_pad (i : Nat) (c : Char) (r : List Char) (hc : (c == ' ') = false) :
    indentOf (pad i ++ c :: r) = i := by
  induction i with
  | zero => simpa [pad] using indentOf_cons_ne c r hc
  | succ n ih =>
      have hstep : pad (n + 1) ++ c :: r = ' ' :: (pad n ++ c :: r) := by
        simp [pad, List.replicate_succ]
      rw [hstep, indentOf_space_cons, ih]

theorem contentOf_pad (i : Nat) (c : Char) (r : List Char) (hc : (c == ' ') = false) :
    contentOf (pad i ++ c :: r) = c :: r := by
  induction i with
  | zero => simpa [pad] using contentOf_cons_ne c r hc
  | succ n ih =>
      have hstep : pad (n + 1) ++ c :: r = ' ' :: (pad n ++ c :: r) := by
        simp [pad, List.replicate_succ]
      rw [hstep, contentOf_space_cons, ih]

theorem startsSpace_eq_true (l : List Char) (h : startsSpace l = true) :
    ∃ r, l = ' ' :: r := by
  rw [startsSpace.eq_def] at h
  split at h
  · exact ⟨_, rfl⟩
  · exact absurd h (by simp)

theorem startsSpace_cons_ne (d : Char) (l : List Char) (hd : d ≠ ' ') :
    startsSpace (d :: l) = false := by
  rw [startsSpace.eq_def]
  split
  · rename_i heq
    injection heq with h1 _
    exact absurd h1 hd
  · rfl

theorem startsDash_cons_ne (c : Char) (t : List Char) (hc : c ≠ '-') :
    startsDash (c :: t) = false := by
  rw [startsDash.eq_def]
  split
  · rename_i heq
    injection heq with h1 _
    exact absurd h1 hc
  · rfl

theorem endsColon_concat (t : List Char) : endsColon (t ++ [':']) = true := by
  unfold endsColon
  rw [List.reverse_append]
  rfl

theorem hasColonSp_cons_ne (c : Char) (r : List Char)
    (hc : ¬(c = ':' ∧ startsSpace r = true)) : hasColonSp (c :: r) = hasColonSp r := by
  rw [hasColonSp.eq_def]
  split
  · rename_i heq
    injection heq with h1 h2
    obtain ⟨r2, hr2⟩ : ∃ r2, r = ' ' :: r2 := ⟨_, h2⟩
    exact absurd ⟨h1, by rw [hr2]; rfl⟩ hc
  · rename_i heq
    injection heq with _ h2
    rw [h2]
  · rename_i heq
    exact absurd heq (by simp)

theorem hasColonSp_tail (c : Char) (r : List Char) (h : hasColonSp (c :: r) = false) :
    hasColonSp r = false := by
  by_cases hc : c = ':' ∧ startsSpace r = true
  · obtain ⟨rfl, hs⟩ := hc
    obtain ⟨r2, rfl⟩ := startsSpace_eq_true r hs
    exact absurd h (by simp [hasColonSp])
  · rw [hasColonSp_cons_ne c r hc] at h
    exact h

theorem hasColonSp_append_left (a b : List Char) (h : hasColonSp a = true) :
    hasColonSp (a ++ b) = true := by
  induction a with
  | nil => exact absurd h (by simp [hasColonSp])
  | cons c r ih =>
      by_cases hc : c = ':' ∧ startsSpace r = true
      · obtain ⟨rfl, hs⟩ := hc
        obtain ⟨r2, rfl⟩ := startsSpace_eq_true r hs
        rfl
      · rw [hasColonSp_cons_ne c r hc] at h
        by_cases hc2 : c = ':' ∧ startsSpace (r ++ b) = true
        · obtain ⟨rfl, hs2⟩ := hc2
          obtain ⟨r2, hr2⟩ := startsSpace_eq_true _ hs2
          rw [List.cons_append, hr2]
          rfl
        · rw [List.cons_append, hasColonSp_cons_ne c _ hc2]
          exact ih h

theorem keyOk_parts (k : String) (h : keyOk k = true) :
    (∃ c ks, k.data = c :: ks ∧ (c == ' ') = false) ∧ (∀ c ∈ k.data, c ≠ '\n')
      ∧ startsDash k.data = false ∧ hasColonSp k.data = false := by
  simp only [keyOk, Bool.and_eq_true, Bool.not_eq_true'] at h
  obtain ⟨⟨⟨⟨h1, h2⟩, h3⟩, h4⟩, h5⟩ := h
  refine ⟨?_, ?_, h4, h5⟩
  · cases hd : k.data with
    | nil => rw [hd] at h1; exact absurd h1 (by simp)
    | cons c ks =>
        refine ⟨c, ks, rfl, ?_⟩
        by_cases hc : c = ' '
        · rw [hd, hc] at h3
          exact absurd h3 (by simp [startsSpace])
        · simpa using hc
  · intro c hc
    have := List.all_eq_true.mp h2 c hc
    simpa using this

-- ---------------------------------------------------------------
-- Codec lemmas: the key/value separator split
-- ---------------------------------------------------------------

theorem splitColonSp_cons_ne (c : Char) (t : List Char) (hc : c ≠ ':') :
    splitColonSp (c :: t)
      = match splitColonSp t with
        | some (k, v) => some (c :: k, v)
        | none => none := by
  rw [splitColonSp.eq_def]
  split
  · rename_i heq
    exact absurd heq (by simp)
  · rename_i heq
    injection heq with h1 _
    exact absurd h1 hc
  · rename_i heq
    injection heq with h1 h2
    rw [h1, h2]

theorem splitColonSp_colon_ne (t : List Char) (ht : startsSpace t = false) :
    splitColonSp (':' :: t)
      = match splitColonSp t with
        | some (k, v) => some (':' :: k, v)
        | none => none := by
  cases t with
  | nil => rfl
  | cons d t2 =>
      by_cases hd : d = ' '
      · rw [hd] at ht
        exact absurd ht (by simp [startsSpace])
      · rw [splitColonSp.eq_def]
        split
        · rename_i heq
          exact absurd heq (by simp)
        · rename_i heq
          injection heq with _ h2
          injection h2 with h3 _
          exact absurd h3 hd
        · rename_i heq
          injection heq with h1 h2
          rw [← h1, ← h2]

theorem splitColonSp_key (kd : List Char) (hk : hasColonSp kd = false) (v : List Char) :
    splitColonSp (kd ++ ':' :: ' ' :: v) = some (kd, v) := by
  induction kd with
  | nil => rfl
  | cons c kd2 ih =>
      have htail : hasColonSp kd2 = false := hasColonSp_tail c kd2 hk
      by_cases hc : c = ':'
      · subst hc
        have hsp : startsSpace (kd2 ++ ':' :: ' ' :: v) = false := by
          cases hkd2 : kd2 with
          | nil => rfl
          | cons d kd3 =>
              by_cases hd : d = ' '
              · rw [hkd2, hd] at hk
                exact absurd hk (by simp [hasColonSp])
              · exact startsSpace_cons_ne d _ hd
        rw [List.cons_append, splitColonSp_colon_ne _ hsp, ih htail]
      · rw [List.cons_append, splitColonSp_cons_ne c _ hc, ih htail]

theorem splitColonSp_key_colon (kd : List Char) (hk : hasColonSp kd = false) :
    splitColonSp (kd ++ [':']) = none := by
  induction kd with
  | nil => rfl
  | cons c kd2 ih =>
      have htail : hasColonSp kd2 = false := hasColonSp_tail c kd2 hk
      by_cases hc : c = ':'
      · subst hc
        have hsp : startsSpace (kd2 ++ [':']) = false := by
          cases hkd2 : kd2 with
          | nil => rfl
          | cons d kd3 =>
              by_cases hd : d = ' '
              · rw [hkd2, hd] at hk
                exact absurd hk (by simp [hasColonSp])
              · exact startsSpace_cons_ne d _ hd
        rw [List.cons_append, splitColonSp_colon_ne _ hsp, ih htail]
      · rw [List.cons_append, splitColonSp_cons_ne c _ hc, ih htail]

theorem splitColonSp_parts : ∀ (l k v : List Char), splitColonSp l = some (k, v) →
    l = k ++ ':' :: ' ' :: v ∧ hasColonSp k = false := by
  intro l
  induction l with
  | nil =>
      intro k v h
      exact absurd h (by simp [splitColonSp])
  | cons c rest ih =>
      intro k v h
      by_cases hc : c = ':'
      · subst hc
        by_cases hs : startsSpace rest = true
        · obtain ⟨r2, rfl⟩ := startsSpace_eq_true rest hs
          have heval : splitColonSp (':' :: ' ' :: r2) = some ([], r2) := rfl
          rw [heval] at h
          simp only [Option.some.injEq, Prod.mk.injEq] at h
          obtain ⟨hk2, hv2⟩ := h
          subst hk2
          subst hv2
          exact ⟨rfl, rfl⟩
        · have hs2 : startsSpace rest = false := by simpa using hs
          rw [splitColonSp_colon_ne rest hs2] at h
          cases hrec : splitColonSp rest with
          | none => rw [hrec] at h; simp at h
          | some kv =>
              obtain ⟨k2, v2⟩ := kv
              rw [hrec] at h
              simp only [Option.some.injEq, Prod.mk.injEq] at h
              obtain ⟨hk2, hv2⟩ := h
              subst hk2
              subst hv2
              obtain ⟨hl, hcs⟩ := ih k2 v2 hrec
              refine ⟨by rw [hl]; rfl, ?_⟩
              have hk2sp : startsSpace k2 = false := by
                cases hk2h : k2 with
                | nil => rfl
                | cons d k3 =>
                    have : rest = d :: (k3 ++ ':' :: ' ' :: v2) := by
                      rw [hl, hk2h]
                      rfl
                    by_cases hd : d = ' '
                    · rw [this, hd] at hs2
                      exact absurd hs2 (by simp [startsSpace])
                    · exact startsSpace_cons_ne d _ hd
              rw [hasColonSp_cons_ne ':' k2 (fun hcon => by
                rw [hcon.2] at hk2sp
                exact absurd hk2sp (by simp))]
              exact hcs
      · rw [splitColonSp_cons_ne c rest hc] at h
        cases hrec : splitColonSp rest with
        | none => rw [hrec] at h; simp at h
        | some kv =>
            obtain ⟨k2, v2⟩ := kv
            rw [hrec] at h
            simp only [Option.some.injEq, Prod.mk.injEq] at h
            obtain ⟨hk2, hv2⟩ := h
            subst hk2
            subst hv2
            obtain ⟨hl, hcs⟩ := ih k2 v2 hrec
            refine ⟨by rw [hl]; rfl, ?_⟩
            rw [hasColonSp_cons_ne c k2 (fun hcon => hc hcon.1)]
            exact hcs

-- ---------------------------------------------------------------
-- Codec lemmas: decimal digits and integers
-- ---------------------------------------------------------------

theorem digitCh_isDigit (n : Nat) : (digitCh n).isDigit = true := by
  rw [digitCh.eq_def]
  split <;> decide

theorem digitCh_toNat (n : Nat) (h : n < 10) : (digitCh n).toNat - Char.toNat '0' = n := by
  interval_cases n <;> decide

theorem natDigits_ne_nil (n : Nat) : natDigits n ≠ [] := by
  rw [natDigits.eq_def]
  split
  · simp
  · simp

theorem natDigits_digits (n : Nat) : ∀ c ∈ natDigits n, c.isDigit = true := by
  induction n using Nat.strong_induction_on with
  | _ n ih =>
    rw [natDigits.eq_def]
    split
    · intro c hc
      have hce : c = digitCh n := by simpa using hc
      rw [hce]
      exact digitCh_isDigit n
    · rename_i h
      intro c hc
      rcases List.mem_append.mp hc with h1 | h2
      · exact ih (n / 10) (Nat.div_lt_self (by omega) (by omega)) c h1
      · have hce : c = digitCh (n % 10) := by simpa using h2
        rw [hce]
        exact digitCh_isDigit _

theorem natDigits_foldl (n : Nat) : ∀ acc : Nat,
    (natDigits n).foldl (fun acc c => acc * 10 + (c.toNat - Char.toNat '0')) acc
      = acc * 10 ^ (natDigits n).length + n := by
  induction n using Nat.strong_induction_on with
  | _ n ih =>
    intro acc
    rw [natDigits.eq_def]
    split
    · rename_i h
      simp only [List.foldl_cons, List.foldl_nil, List.length_singleton]
      rw [digitCh_toNat n h, pow_one]
    · rename_i h
      rw [List.foldl_append, List.length_append,
        ih (n / 10) (Nat.div_lt_self (by omega) (by omega)) acc]
      simp only [List.foldl_cons, List.foldl_nil, List.length_singleton]
      rw [digitCh_toNat (n % 10) (Nat.mod_lt n (by omega)), pow_succ, ← Nat.mul_assoc]
      generalize acc * 10 ^ (natDigits (n / 10)).length = A
      omega

theorem natOfDigits_natDigits (n : Nat) : readInt?.natOfDigits (natDigits n) = n := by
  have h := natDigits_foldl n 0
  simpa [readInt?.natOfDigits] using h

theorem readInt?_cons_ne (c : Char) (r : List Char) (hc : c ≠ '-') :
    readInt? (c :: r)
      = if c :: r ≠ [] && (c :: r).all Char.isDigit then
          some (Int.ofNat (readInt?.natOfDigits (c :: r)))
        else none := by
  rw [readInt?.eq_def]
  split
  · rename_i heq
    injection heq with h1 _
    exact absurd h1 hc
  · rfl

theorem readInt?_neg (r : List Char) :
    readInt? ('-' :: r)
      = if r ≠ [] && r.all Char.isDigit then
          some (-(Int.ofNat (readInt?.natOfDigits r)))
        else none := rfl

theorem readInt?_natDigits (n : Nat) : readInt? (natDigits n) = some (Int.ofNat n) := by
  cases hd : natDigits n with
  | nil => exact absurd hd (natDigits_ne_nil n)
  | cons c r =>
      have hcd : c.isDigit = true := natDigits_digits n c (by rw [hd]; simp)
      have hcm : c ≠ '-' := by
        intro h
        rw [h] at hcd
        exact absurd hcd (by decide)
      have hall : (c :: r).all Char.isDigit = true := by
        rw [← hd]
        refine List.all_eq_true.mpr ?_
        intro x hx
        simpa using natDigits_digits n x hx
      rw [readInt?_cons_ne c r hcm, if_pos (by simp [hall]), ← hd, natOfDigits_natDigits n]

theorem readInt?_encInt (n : Int) : readInt? (encInt n) = some n := by
  unfold encInt
  split
  · rename_i h
    rw [readInt?_neg]
    have hall : (natDigits n.natAbs).all Char.isDigit = true := by
      refine List.all_eq_true.mpr ?_
      intro x hx
      simpa using natDigits_digits _ x hx
    rw [if_pos (by simp [hall, natDigits_ne_nil]), natOfDigits_natDigits]
    have : -(Int.ofNat n.natAbs) = n := by
      simp only [Int.ofNat_eq_natCast]
      omega
    rw [this]
  · rename_i h
    rw [readInt?_natDigits]
    have : Int.ofNat n.toNat = n := by
      simp only [Int.ofNat_eq_natCast]
      omega
    rw [this]

theorem encInt_chars (n : Int) : ∀ c ∈ encInt n, c.isDigit = true ∨ c = '-' := by
  unfold encInt
  split
  · intro c hc
    rcases List.mem_cons.mp hc with h1 | h2
    · right; exact h1
    · left; exact natDigits_digits _ c h2
  · intro c hc
    left
    exact natDigits_digits _ c hc

theorem encInt_ne_reserved (n : Int) :
    encInt n ≠ "true".data ∧ encInt n ≠ "false".data ∧ encInt n ≠ "null".data := by
  have hh := encInt_chars n
  refine ⟨?_, ?_, ?_⟩ <;> intro h
  · have hm : 't' ∈ encInt n := by rw [h]; decide
    rcases hh 't' hm with h1 | h2
    · exact absurd h1 (by decide)
    · exact absurd h2 (by decide)
  · have hm : 'f' ∈ encInt n := by rw [h]; decide
    rcases hh 'f' hm with h1 | h2
    · exact absurd h1 (by decide)
    · exact absurd h2 (by decide)
  · have hm : 'u' ∈ encInt n := by rw [h]; decide
    rcases hh 'u' hm with h1 | h2
    · exact absurd h1 (by decide)
    · exact absurd h2 (by decide)

-- ---------------------------------------------------------------
-- Codec lemmas: double-quoted text scalars
-- ---------------------------------------------------------------

theorem escapeChars_cons_ne (c : Char) (r : List Char)
    (h1 : c ≠ '\n') (h2 : c ≠ '"') (h3 : c ≠ '\\') :
    escapeChars (c :: r) = c :: escapeChars r := by
  rw [escapeChars.eq_def]
  split
  · rename_i heq
    exact absurd heq (by simp)
  · rename_i heq
    injection heq with ha _
    exact absurd ha h1
  · rename_i heq
    injection heq with ha _
    exact absurd ha h2
  · rename_i heq
    injection heq with ha _
    exact absurd ha h3
  · rename_i heq
    injection heq with ha hb
    rw [ha, hb]

theorem unescapeChars_cons_ne (c : Char) (r : List Char) (h2 : c ≠ '"') (h3 : c ≠ '\\') :
    unescapeChars (c :: r) = (unescapeChars r).map (fun s => c :: s) := by
  rw [unescapeChars.eq_def]
  split
  · rename_i heq
    exact absurd heq (by simp)
  · rename_i heq
    injection heq with ha _
    exact absurd ha h3
  · rename_i heq
    injection heq with ha _
    exact absurd ha h3
  · rename_i heq
    injection heq with ha _
    exact absurd ha h3
  · rename_i heq
    injection heq with ha _
    exact absurd ha h3
  · rename_i heq
    injection heq with ha _
    exact absurd ha h2
  · rename_i heq
    injection heq with ha hb
    rw [ha, hb]

theorem unescape_escape (l : List Char) : unescapeChars (escapeChars l) = some l := by
  induction l with
  | nil => rfl
  | cons c r ih =>
      by_cases h1 : c = '\n'
      · subst h1
        have e1 : escapeChars ('\n' :: r) = '\\' :: 'n' :: escapeChars r := rfl
        have e2 : unescapeChars ('\\' :: 'n' :: escapeChars r)
            = (unescapeChars (escapeChars r)).map (fun s => '\n' :: s) := rfl
        rw [e1, e2, ih]
        rfl
      · by_cases h2 : c = '"'
        · subst h2
          have e1 : escapeChars ('"' :: r) = '\\' :: '"' :: escapeChars r := rfl
          have e2 : unescapeChars ('\\' :: '"' :: escapeChars r)
              = (unescapeChars (escapeChars r)).map (fun s => '"' :: s) := rfl
          rw [e1, e2, ih]
          rfl
        · by_cases h3 : c = '\\'
          · subst h3
            have e1 : escapeChars ('\\' :: r) = '\\' :: '\\' :: escapeChars r := rfl
            have e2 : unescapeChars ('\\' :: '\\' :: escapeChars r)
                = (unescapeChars (escapeChars r)).map (fun s => '\\' :: s) := rfl
            rw [e1, e2, ih]
            rfl
          · rw [escapeChars_cons_ne c r h1 h2 h3, unescapeChars_cons_ne c _ h2 h3, ih]
            rfl

theorem escapeChars_noNL (l : List Char) : ∀ c ∈ escapeChars l, c ≠ '\n' := by
  induction l with
  | nil =>
      intro c hc
      simp [escapeChars] at hc
  | cons d r ih =>
      by_cases h1 : d = '\n'
      · subst h1
        intro c hc
        have e1 : escapeChars ('\n' :: r) = '\\' :: 'n' :: escapeChars r := rfl
        rw [e1] at hc
        rcases List.mem_cons.mp hc with ha | hb
        · rw [ha]; decide
        · rcases List.mem_cons.mp hb with ha2 | hb2
          · rw [ha2]; decide
          · exact ih c hb2
      · by_cases h2 : d = '"'
        · subst h2
          intro c hc
          have e1 : escapeChars ('"' :: r) = '\\' :: '"' :: escapeChars r := rfl
          rw [e1] at hc
          rcases List.mem_cons.mp hc with ha | hb
          · rw [ha]; decide
          · rcases List.mem_cons.mp hb with ha2 | hb2
            · rw [ha2]; decide
            · exact ih c hb2
        · by_cases h3 : d = '\\'
          · subst h3
            intro c hc
            have e1 : escapeChars ('\\' :: r) = '\\' :: '\\' :: escapeChars r := rfl
            rw [e1] at hc
            rcases List.mem_cons.mp hc with ha | hb
            · rw [ha]; decide
            · rcases List.mem_cons.mp hb with ha2 | hb2
              · rw [ha2]; decide
              · exact ih c hb2
          · intro c hc
            rw [escapeChars_cons_ne d r h1 h2 h3] at hc
            rcases List.mem_cons.mp hc with ha | hb
            · rw [ha]; exact h1
            · exact ih c hb

theorem parseQuoted_quoted (s : List Char) :
    parseQuoted ('"' :: (escapeChars s ++ ['"'])) = some s := by
  have e1 : parseQuoted ('"' :: (escapeChars s ++ ['"']))
      = if (escapeChars s ++ ['"']) ≠ []
            && ((escapeChars s ++ ['"']).getLast? == some '"') then
          unescapeChars (escapeChars s ++ ['"']).dropLast
        else none := rfl
  rw [e1, if_pos (by simp [List.getLast?_concat]), List.dropLast_concat]
  exact unescape_escape s

theorem parseQuoted_not_quote (l : List Char) (h : quoteLead l = false) :
    parseQuoted l = none := by
  cases l with
  | nil => rfl
  | cons c r =>
      by_cases hc : c = '"'
      · subst hc
        exact absurd h (by simp [quoteLead])
      · rw [parseQuoted.eq_def]
        split
        · rename_i heq
          injection heq with ha _
          exact absurd ha hc
        · rfl

-- ---------------------------------------------------------------
-- Codec lemmas: scalar round-trip
-- ---------------------------------------------------------------

theorem plainOk_parts (s : List Char) (h : plainOk s = true) :
    s ≠ [] ∧ (∀ c ∈ s, c ≠ '\n') ∧ s ≠ "true".data ∧ s ≠ "false".data
      ∧ s ≠ "null".data ∧ readInt? s = none ∧ quoteLead s = false := by
  simp only [plainOk, Bool.and_eq_true, Bool.not_eq_true', decide_eq_true_eq,
    Option.isNone_iff_eq_none] at h
  obtain ⟨⟨⟨⟨⟨⟨h1, h2⟩, h3⟩, h4⟩, h5⟩, h6⟩, h7⟩ := h
  refine ⟨?_, ?_, h3, h4, h5, h6, h7⟩
  · intro he
    rw [he] at h1
    exact absurd h1 (by simp)
  · intro c hc
    have := List.all_eq_true.mp h2 c hc
    simpa using this

theorem readInt?_quote (r : List Char) : readInt? ('"' :: r) = none := by
  rw [readInt?_cons_ne '"' r (by decide), if_neg]
  simp [List.all_cons]

theorem readScalar_encScalar (v : Yaml) (h : wfScalar v = true) :
    readScalar (encScalar v) = v := by
  cases v with
  | null => rfl
  | bool b => cases b <;> rfl
  | int n =>
      have hne := encInt_ne_reserved n
      show readScalar (encInt n) = .int n
      unfold readScalar
      rw [if_neg hne.1, if_neg hne.2.1, if_neg hne.2.2, readInt?_encInt n]
  | str s =>
      show readScalar (encScalar (.str s)) = .str s
      simp only [encScalar]
      by_cases hp : plainOk s.data = true
      · rw [if_pos hp]
        obtain ⟨hne, hnl, ht, hf, hnu, hint, hq⟩ := plainOk_parts s.data hp
        unfold readScalar
        rw [if_neg ht, if_neg hf, if_neg hnu, hint, parseQuoted_not_quote _ hq]
      · rw [if_neg hp]
        have hshape : '"' :: escapeChars s.data ++ ['"']
            = '"' :: (escapeChars s.data ++ ['"']) := by
          rw [List.cons_append]
        rw [hshape]
        have hht : '"' :: (escapeChars s.data ++ ['"']) ≠ "true".data := by
          intro he
          injection he with ha _
          exact absurd ha (by decide)
        have hhf : '"' :: (escapeChars s.data ++ ['"']) ≠ "false".data := by
          intro he
          injection he with ha _
          exact absurd ha (by decide)
        have hhn : '"' :: (escapeChars s.data ++ ['"']) ≠ "null".data := by
          intro he
          injection he with ha _
          exact absurd ha (by decide)
        unfold readScalar
        rw [if_neg hht, if_neg hhf, if_neg hhn, readInt?_quote, parseQuoted_quoted]
  | seq xs => exact absurd h (by simp [wfScalar])
  | map kvs => exact absurd h (by simp [wfScalar])

theorem encScalar_noNL (v : Yaml) : ∀ c ∈ encScalar v, c ≠ '\n' := by
  cases v with
  | null => decide
  | bool b => cases b <;> decide
  | int n =>
      intro c hc
      rcases encInt_chars n c hc with h1 | h2
      · intro he
        rw [he] at h1
        exact absurd h1 (by decide)
      · rw [h2]; decide
  | str s =>
      simp only [encScalar]
      by_cases hp : plainOk s.data = true
      · rw [if_pos hp]
        exact (plainOk_parts s.data hp).2.1
      · rw [if_neg hp]
        intro c hc
        rcases List.mem_append.mp hc with h1 | h2
        · rcases List.mem_cons.mp h1 with ha | hb
          · rw [ha]; decide
          · exact escapeChars_noNL s.data c hb
        · have : c = '"' := by simpa using h2
          rw [this]; decide
  | seq xs =>
      intro c hc
      simp [encScalar] at hc
  | map kvs =>
      intro c hc
      simp [encScalar] at hc

theorem wfScalar_readScalar (l : List Char) : wfScalar (readScalar l) = true := by
  unfold readScalar
  split
  · rfl
  split
  · rfl
  split
  · rfl
  split
  · rfl
  split
  · rfl
  · rfl

theorem wfVal_readScalar (l : List Char) : wfVal (readScalar l) = true := by
  unfold readScalar
  split
  · rfl
  split
  · rfl
  split
  · rfl
  split
  · rfl
  split
  · rfl
  · rfl

-- ---------------------------------------------------------------
-- Codec lemmas: dash, space and separator shape facts
-- ---------------------------------------------------------------

theorem startsSpace_head (x : Char) (r : List Char) (h : startsSpace (x :: r) = false) :
    x ≠ ' ' := by
  intro hx
  rw [hx] at h
  exact absurd h (by simp [startsSpace])

theorem startsDash_single (c : Char) : startsDash [c] = false := by
  rw [startsDash.eq_def]
  split
  · rename_i heq
    injection heq with _ h2
    exact absurd h2 (by simp)
  · rfl

theorem startsDash_two (x y : Char) (a : List Char) :
    startsDash (x :: y :: a) = (decide (x = '-') && decide (y = ' ')) := by
  rw [startsDash.eq_def]
  split
  · rename_i heq
    injection heq with h1 h2
    injection h2 with h3 _
    rw [h1, h3]
    simp
  · rename_i hne
    by_cases hx : x = '-'
    · by_cases hy : y = ' '
      · subst hx
        subst hy
        exact absurd rfl (hne a)
      · simp [hy]
    · simp [hx]

theorem startsDash_of_append (k X : List Char) (h : startsDash (k ++ X) = false) :
    startsDash k = false := by
  cases k with
  | nil => rfl
  | cons c ks =>
      cases ks with
      | nil => exact startsDash_single c
      | cons d ks2 =>
          rw [List.cons_append, List.cons_append, startsDash_two] at h
          rw [startsDash_two]
          exact h

theorem startsDash_append_sep (kd X : List Char) (hne : kd ≠ [])
    (hk : startsDash kd = false) (hX : startsSpace X = false) :
    startsDash (kd ++ X) = false := by
  cases kd with
  | nil => exact absurd rfl hne
  | cons c ks =>
      cases ks with
      | nil =>
          cases X with
          | nil => exact startsDash_single c
          | cons x X2 =>
              have hx : x ≠ ' ' := startsSpace_head x X2 hX
              rw [List.cons_append, List.nil_append, startsDash_two]
              simp [hx]
      | cons d ks2 =>
          rw [startsDash_two] at hk
          rw [List.cons_append, List.cons_append, startsDash_two]
          exact hk

theorem hasColonSp_pad (i : Nat) (kd : List Char) :
    hasColonSp (pad i ++ kd) = hasColonSp kd := by
  induction i with
  | zero => simp [pad]
  | succ m ih =>
      have hstep : pad (m + 1) ++ kd = ' ' :: (pad m ++ kd) := by
        simp [pad, List.replicate_succ]
      rw [hstep, hasColonSp_cons_ne ' ' _ (by simp), ih]

theorem splitColonSp_isSome_of_has (l : List Char) (h : hasColonSp l = true) :
    (splitColonSp l).isSome = true := by
  induction l with
  | nil => exact absurd h (by simp [hasColonSp])
  | cons c r ih =>
      by_cases hc : c = ':' ∧ startsSpace r = true
      · obtain ⟨rfl, hs⟩ := hc
        obtain ⟨r2, rfl⟩ := startsSpace_eq_true r hs
        rfl
      · rw [hasColonSp_cons_ne c r hc] at h
        have hsome := ih h
        by_cases hcc : c = ':'
        · subst hcc
          have hs : startsSpace r = false := by
            by_cases hs2 : startsSpace r = true
            · exact absurd ⟨rfl, hs2⟩ hc
            · simpa using hs2
          rw [splitColonSp_colon_ne r hs]
          cases hsp : splitColonSp r with
          | none =>
              rw [hsp] at hsome
              simp at hsome
          | some kv =>
              obtain ⟨k, v⟩ := kv
              rfl
        · rw [splitColonSp_cons_ne c r hcc]
          cases hsp : splitColonSp r with
          | none =>
              rw [hsp] at hsome
              simp at hsome
          | some kv =>
              obtain ⟨k, v⟩ := kv
              rfl

theorem contentOf_not_space (l : List Char) : startsSpace (contentOf l) = false := by
  induction l with
  | nil => rfl
  | cons c r ih =>
      by_cases hc : c = ' '
      · rw [hc, contentOf_space_cons]
        exact ih
      · rw [contentOf_cons_ne c r (by simpa using hc)]
        exact startsSpace_cons_ne c r hc

theorem contentOf_mem (l : List Char) (c : Char) (hc : c ∈ contentOf l) : c ∈ l := by
  induction l with
  | nil => simpa [contentOf] using hc
  | cons d r ih =>
      by_cases hd : d = ' '
      · rw [hd, contentOf_space_cons] at hc
        rw [hd]
        exact List.mem_cons_of_mem _ (ih hc)
      · rw [contentOf_cons_ne d r (by simpa using hd)] at hc
        exact hc

-- ---------------------------------------------------------------
-- Codec lemmas: well-formedness decomposition
-- ---------------------------------------------------------------

theorem wfEntries_head (k : String) (v : Yaml) (r : List (String × Yaml))
    (h : wfEntries ((k, v) :: r) = true) :
    keyOk k = true ∧ wfVal v = true ∧ wfEntries r = true := by
  simpa [wfEntries, Bool.and_eq_true, and_assoc] using h

theorem wfItems_mem (xs : List Yaml) (h : wfItems xs = true) :
    ∀ y ∈ xs, wfScalar y = true := by
  induction xs with
  | nil =>
      intro y hy
      simp at hy
  | cons x xs2 ih =>
      have h2 : wfScalar x = true ∧ wfItems xs2 = true := by
        simpa [wfItems, Bool.and_eq_true] using h
      intro y hy
      rcases List.mem_cons.mp hy with hy1 | hy2
      · rw [hy1]; exact h2.1
      · exact ih h2.2 y hy2

-- ---------------------------------------------------------------
-- Codec lemmas: parsing encoded sequence items
-- ---------------------------------------------------------------

theorem parseSeqItems_stop (i : Nat) (ls : List (List Char)) (hstop : seqStop i ls) :
    parseSeqItems i ls = ([], ls) := by
  cases ls with
  | nil => rfl
  | cons l r =>
      have hstop2 : ¬(indentOf l = i ∧ startsDash (contentOf l) = true) := hstop
      have hcond : ¬((indentOf l = i && startsDash (contentOf l)) = true) := by
        simp only [Bool.and_eq_true, decide_eq_true_eq]
        exact hstop2
      unfold parseSeqItems
      rw [if_neg hcond]

theorem parseSeqItems_enc (i : Nat) (xs : List Yaml) (hwf : wfItems xs = true)
    (rest : List (List Char)) (hstop : seqStop i rest) :
    parseSeqItems i ((xs.map (fun y => pad i ++ '-' :: ' ' :: encScalar y)) ++ rest)
      = (xs, rest) := by
  induction xs with
  | nil => simpa using parseSeqItems_stop i rest hstop
  | cons x xs2 ih =>
      have h2 : wfScalar x = true ∧ wfItems xs2 = true := by
        simpa [wfItems, Bool.and_eq_true] using hwf
      have hind : indentOf (pad i ++ '-' :: ' ' :: encScalar x) = i :=
        indentOf_pad i '-' _ (by decide)
      have hcont : contentOf (pad i ++ '-' :: ' ' :: encScalar x) = '-' :: ' ' :: encScalar x :=
        contentOf_pad i '-' _ (by decide)
      have hcond : ((indentOf (pad i ++ '-' :: ' ' :: encScalar x) = i
          && startsDash (contentOf (pad i ++ '-' :: ' ' :: encScalar x))) = true) := by
        rw [hind, hcont]
        simp [startsDash]
      simp only [List.map_cons, List.cons_append]
      unfold parseSeqItems
      rw [if_pos hcond, hcont, ih h2.2]
      simp [dropDash, readScalar_encScalar x h2.1]

-- ---------------------------------------------------------------
-- Codec lemmas: one parsing step on encoded mapping-entry lines
-- ---------------------------------------------------------------

theorem parseMapEntries_scalar_step (fuel i : Nat) (l : List Char) (ls : List (List Char))
    (hind : indentOf l = i) (kd vd : List Char)
    (hc : contentOf l = kd ++ ':' :: ' ' :: vd)
    (hkcs : hasColonSp kd = false) (hkdash : startsDash kd = false) (hkne : kd ≠ []) :
    parseMapEntries (fuel + 1) i (l :: ls)
      = match parseMapEntries fuel i ls with
        | some (kvs, r) => some ((⟨kd⟩, readScalar vd) :: kvs, r)
        | none => none := by
  have hdash : ¬(startsDash (kd ++ ':' :: ' ' :: vd) = true) := by
    rw [startsDash_append_sep kd _ hkne hkdash (startsSpace_cons_ne ':' _ (by decide))]
    simp
  simp only [parseMapEntries]
  rw [hind, if_neg (lt_irrefl i), if_neg (fun h => h rfl), hc, if_neg hdash,
    splitColonSp_key kd hkcs vd]
  dsimp only
  rw [if_neg hkne]

theorem parseMapEntries_seq_step (fuel i : Nat) (l l2 : List Char) (tail : List (List Char))
    (hind : indentOf l = i) (kd : List Char)
    (hc : contentOf l = kd ++ [':'])
    (hkcs : hasColonSp kd = false) (hkdash : startsDash kd = false) (hkne : kd ≠ [])
    (hl2i : indentOf l2 = i) (hl2d : startsDash (contentOf l2) = true) :
    parseMapEntries (fuel + 1) i (l :: l2 :: tail)
      = match parseMapEntries fuel i (parseSeqItems i (l2 :: tail)).2 with
        | some (kvs, r) =>
            some ((⟨kd⟩, .seq (parseSeqItems i (l2 :: tail)).1) :: kvs, r)
        | none => none := by
  have hdash : ¬(startsDash (kd ++ [':']) = true) := by
    rw [startsDash_append_sep kd [':'] hkne hkdash (by decide)]
    simp
  simp only [parseMapEntries]
  rw [hind, if_neg (lt_irrefl i), if_neg (fun h => h rfl), hc, if_neg hdash,
    splitColonSp_key_colon kd hkcs]
  dsimp only
  have hcol : endsColon (kd ++ [':']) = true := endsColon_concat kd
  have hlen : ((kd ++ [':']).length ≥ 2) := by
    cases kd with
    | nil => exact absurd rfl hkne
    | cons c t => simp
  have hcond : (endsColon (kd ++ [':']) && decide ((kd ++ [':']).length ≥ 2)) = true := by
    rw [hcol]
    simpa using hlen
  rw [if_pos hcond]
  have hcond2 : ((indentOf l2 = i && startsDash (contentOf l2)) = true) := by
    rw [hl2i, hl2d]
    simp
  rw [if_pos hcond2]
  have hdrop : (kd ++ [':']).dropLast = kd := by
    simp
  rw [hdrop]

theorem parseMapEntries_map_step (fuel i : Nat) (l l2 : List Char) (tail : List (List Char))
    (hind : indentOf l = i) (kd : List Char)
    (hc : contentOf l = kd ++ [':'])
    (hkcs : hasColonSp kd = false) (hkdash : startsDash kd = false) (hkne : kd ≠ [])
    (hl2i : indentOf l2 = i + 2) :
    parseMapEntries (fuel + 1) i (l :: l2 :: tail)
      = match parseMapEntries fuel (i + 2) (l2 :: tail) with
        | some ([], _) => none
        | some (kv :: kvs, r) =>
            match parseMapEntries fuel i r with
            | some (kvs2, r2) => some ((⟨kd⟩, .map (kv :: kvs)) :: kvs2, r2)
            | none => none
        | none => none := by
  have hdash : ¬(startsDash (kd ++ [':']) = true) := by
    rw [startsDash_append_sep kd [':'] hkne hkdash (by decide)]
    simp
  simp only [parseMapEntries]
  rw [hind, if_neg (lt_irrefl i), if_neg (fun h => h rfl), hc, if_neg hdash,
    splitColonSp_key_colon kd hkcs]
  dsimp only
  have hcol : endsColon (kd ++ [':']) = true := endsColon_concat kd
  have hlen : ((kd ++ [':']).length ≥ 2) := by
    cases kd with
    | nil => exact absurd rfl hkne
    | cons c t => simp
  have hcond : (endsColon (kd ++ [':']) && decide ((kd ++ [':']).length ≥ 2)) = true := by
    rw [hcol]
    simpa using hlen
  rw [if_pos hcond]
  have hcond2 : ¬((indentOf l2 = i && startsDash (contentOf l2)) = true) := by
    rw [hl2i]
    simp
  rw [if_neg hcond2, if_pos hl2i]
  have hdrop : (kd ++ [':']).dropLast = kd := by
    simp
  rw [hdrop]

-- ---------------------------------------------------------------
-- Codec lemmas: shape of encoded entry lines
-- ---------------------------------------------------------------

theorem key_line_props (i : Nat) (k : String) (t : List Char) (hk : keyOk k = true)
    (ht : ∀ c ∈ t, c ≠ '\n') (hts : startsSpace t = false) :
    (pad i ++ (k.data ++ t)) ≠ [] ∧ (∀ c ∈ pad i ++ (k.data ++ t), c ≠ '\n')
      ∧ indentOf (pad i ++ (k.data ++ t)) = i
      ∧ contentOf (pad i ++ (k.data ++ t)) = k.data ++ t
      ∧ startsDash (contentOf (pad i ++ (k.data ++ t))) = false := by
  obtain ⟨⟨kc, ks, hkd, hkc⟩, hknl, hkdash, hkcs⟩ := keyOk_parts k hk
  have hshape : k.data ++ t = kc :: (ks ++ t) := by
    rw [hkd]
    simp
  refine ⟨?_, ?_, ?_, ?_, ?_⟩
  · rw [hshape]
    simp
  · intro c hc
    rcases List.mem_append.mp hc with hc1 | hc2
    · rw [List.eq_of_mem_replicate hc1]
      decide
    · rcases List.mem_append.mp hc2 with hc3 | hc4
      · exact hknl c hc3
      · exact ht c hc4
  · rw [hshape]
    exact indentOf_pad i kc (ks ++ t) hkc
  · rw [hshape, contentOf_pad i kc (ks ++ t) hkc]
  · rw [hshape, contentOf_pad i kc (ks ++ t) hkc, ← hshape]
    exact startsDash_append_sep k.data t (by rw [hkd]; simp) hkdash hts

/-- The head line of the encoding of a nonempty well-formed entry list:
it sits at the block's indent, is not an item line, and is a mapping
line (it has a key/value separator or a trailing colon). -/
theorem encEntries_head_props (i : Nat) (k : String) (v : Yaml) (r : List (String × Yaml))
    (hk : keyOk k = true) (hv : wfVal v = true) :
    ∃ l tail, encEntries i ((k, v) :: r) = l :: tail ∧ indentOf l = i ∧
      startsDash (contentOf l) = false ∧
      ((splitColonSp l).isSome || endsColon l) = true := by
  obtain ⟨⟨kc, ks, hkd, hkc⟩, hknl, hkdash, hkcs⟩ := keyOk_parts k hk
  have hkne : k.data ≠ [] := by
    rw [hkd]
    simp
  have hpkcs : hasColonSp (pad i ++ k.data) = false := by
    rw [hasColonSp_pad]
    exact hkcs
  have hsep : ∀ w : Yaml,
      ((splitColonSp (pad i ++ (k.data ++ ':' :: ' ' :: encScalar w))).isSome
        || endsColon (pad i ++ (k.data ++ ':' :: ' ' :: encScalar w))) = true := by
    intro w
    have hsp : splitColonSp ((pad i ++ k.data) ++ ':' :: ' ' :: encScalar w)
        = some (pad i ++ k.data, encScalar w) :=
      splitColonSp_key _ hpkcs _
    rw [List.append_assoc] at hsp
    simp [hsp]
  have hopen : ((splitColonSp (pad i ++ (k.data ++ [':']))).isSome
      || endsColon (pad i ++ (k.data ++ [':']))) = true := by
    have hec : endsColon ((pad i ++ k.data) ++ [':']) = true := endsColon_concat _
    rw [List.append_assoc] at hec
    simp [hec]
  have hnlScalar : ∀ w : Yaml, ∀ c ∈ ':' :: ' ' :: encScalar w, c ≠ '\n' := by
    intro w c hc
    rcases List.mem_cons.mp hc with h1 | h2
    · rw [h1]; decide
    · rcases List.mem_cons.mp h2 with h3 | h4
      · rw [h3]; decide
      · exact encScalar_noNL w c h4
  have htsScalar : ∀ w : Yaml, startsSpace (':' :: ' ' :: encScalar w) = false :=
    fun w => startsSpace_cons_ne ':' _ (by decide)
  cases v with
  | null =>
      refine ⟨pad i ++ (k.data ++ ':' :: ' ' :: encScalar .null), encEntries i r,
        by simp [encEntries], ?_, ?_, hsep .null⟩
      · exact (key_line_props i k _ hk (hnlScalar .null) (htsScalar .null)).2.2.1
      · exact (key_line_props i k _ hk (hnlScalar .null) (htsScalar .null)).2.2.2.2
  | bool b =>
      refine ⟨pad i ++ (k.data ++ ':' :: ' ' :: encScalar (.bool b)), encEntries i r,
        by simp [encEntries], ?_, ?_, hsep (.bool b)⟩
      · exact (key_line_props i k _ hk (hnlScalar (.bool b)) (htsScalar (.bool b))).2.2.1
      · exact (key_line_props i k _ hk (hnlScalar (.bool b)) (htsScalar (.bool b))).2.2.2.2
  | int n =>
      refine ⟨pad i ++ (k.data ++ ':' :: ' ' :: encScalar (.int n)), encEntries i r,
        by simp [encEntries], ?_, ?_, hsep (.int n)⟩
      · exact (key_line_props i k _ hk (hnlScalar (.int n)) (htsScalar (.int n))).2.2.1
      · exact (key_line_props i k _ hk (hnlScalar (.int n)) (htsScalar (.int n))).2.2.2.2
  | str sv =>
      refine ⟨pad i ++ (k.data ++ ':' :: ' ' :: encScalar (.str sv)), encEntries i r,
        by simp [encEntries], ?_, ?_, hsep (.str sv)⟩
      · exact (key_line_props i k _ hk (hnlScalar (.str sv)) (htsScalar (.str sv))).2.2.1
      · exact (key_line_props i k _ hk (hnlScalar (.str sv)) (htsScalar (.str sv))).2.2.2.2
  | seq xs =>
      cases xs with
      | nil => exact absurd hv (by simp [wfVal])
      | cons x xs2 =>
          refine ⟨pad i ++ (k.data ++ [':']),
            ((x :: xs2).map (fun y => pad i ++ '-' :: ' ' :: encScalar y)) ++ encEntries i r,
            by simp [encEntries], ?_, ?_, hopen⟩
          · exact (key_line_props i k [':'] hk (by decide) (by decide)).2.2.1
          · exact (key_line_props i k [':'] hk (by decide) (by decide)).2.2.2.2
  | map kvs =>
      cases kvs with
      | nil => exact absurd hv (by simp [wfVal])
      | cons kv2 kvs2 =>
          refine ⟨pad i ++ (k.data ++ [':']),
            encEntries (i + 2) (kv2 :: kvs2) ++ encEntries i r,
            by simp [encEntries], ?_, ?_, hopen⟩
          · exact (key_line_props i k [':'] hk (by decide) (by decide)).2.2.1
          · exact (key_line_props i k [':'] hk (by decide) (by decide)).2.2.2.2

/-- Every line of the encoding of a well-formed entry list is nonempty,
newline-free, and indented at least to the block's indent. -/
theorem enc_lines_props : ∀ (n : Nat) (kvs : List (String × Yaml)), sizeOf kvs ≤ n →
    wfEntries kvs = true → ∀ (i : Nat) (l : List Char), l ∈ encEntries i kvs →
    l ≠ [] ∧ (∀ c ∈ l, c ≠ '\n') ∧ i ≤ indentOf l := by
  intro n
  induction n using Nat.strong_induction_on with
  | _ n ih =>
    intro kvs hsz hwf i l hl
    match kvs with
    | [] => simp [encEntries] at hl
    | (k, v) :: rest =>
        obtain ⟨hk, hv, hr⟩ := wfEntries_head k v rest hwf
        have hrest_sz : sizeOf rest < n := by
          have h1 : sizeOf ((k, v) :: rest) ≤ n := hsz
          simp only [List.cons.sizeOf_spec, Prod.mk.sizeOf_spec] at h1
          omega
        have hscalar : ∀ w : Yaml,
            l = pad i ++ (k.data ++ ':' :: ' ' :: encScalar w) →
            l ≠ [] ∧ (∀ c ∈ l, c ≠ '\n') ∧ i ≤ indentOf l := by
          intro w hline
          have ht : ∀ c ∈ ':' :: ' ' :: encScalar w, c ≠ '\n' := by
            intro c hc
            rcases List.mem_cons.mp hc with h1 | h2
            · rw [h1]; decide
            · rcases List.mem_cons.mp h2 with h3 | h4
              · rw [h3]; decide
              · exact encScalar_noNL w c h4
          obtain ⟨p1, p2, p3, _, _⟩ :=
            key_line_props i k _ hk ht (startsSpace_cons_ne ':' _ (by decide))
          rw [hline]
          exact ⟨p1, p2, by rw [p3]⟩
        have hopenline : l = pad i ++ (k.data ++ [':']) →
            l ≠ [] ∧ (∀ c ∈ l, c ≠ '\n') ∧ i ≤ indentOf l := by
          intro hline
          obtain ⟨p1, p2, p3, _, _⟩ := key_line_props i k [':'] hk (by decide) (by decide)
          rw [hline]
          exact ⟨p1, p2, by rw [p3]⟩
        have hitemline : ∀ y : Yaml,
            l = pad i ++ '-' :: ' ' :: encScalar y →
            l ≠ [] ∧ (∀ c ∈ l, c ≠ '\n') ∧ i ≤ indentOf l := by
          intro y hline
          rw [hline]
          refine ⟨by simp, ?_, by rw [indentOf_pad i '-' _ (by decide)]⟩
          intro c hc
          rcases List.mem_append.mp hc with h1 | h2
          · rw [List.eq_of_mem_replicate h1]; decide
          · rcases List.mem_cons.mp h2 with h3 | h4
            · rw [h3]; decide
            · rcases List.mem_cons.mp h4 with h5 | h6
              · rw [h5]; decide
              · exact encScalar_noNL y c h6
        cases v with
        | null =>
            simp only [encEntries, List.singleton_append] at hl
            rcases List.mem_cons.mp hl with h1 | h2
            · exact hscalar .null (by rw [h1]; simp)
            · exact ih (sizeOf rest) hrest_sz rest (le_refl _) hr i l h2
        | bool b =>
            simp only [encEntries, List.singleton_append] at hl
            rcases List.mem_cons.mp hl with h1 | h2
            · exact hscalar (.bool b) (by rw [h1]; simp)
            · exact ih (sizeOf rest) hrest_sz rest (le_refl _) hr i l h2
        | int nv =>
            simp only [encEntries, List.singleton_append] at hl
            rcases List.mem_cons.mp hl with h1 | h2
            · exact hscalar (.int nv) (by rw [h1]; simp)
            · exact ih (sizeOf rest) hrest_sz rest (le_refl _) hr i l h2
        | str sv =>
            simp only [encEntries, List.singleton_append] at hl
            rcases List.mem_cons.mp hl with h1 | h2
            · exact hscalar (.str sv) (by rw [h1]; simp)
            · exact ih (sizeOf rest) hrest_sz rest (le_refl _) hr i l h2
        | seq xs =>
            cases xs with
            | nil => exact absurd hv (by simp [wfVal])
            | cons x xs2 =>
                simp only [encEntries, List.cons_append, List.append_assoc] at hl
                rcases List.mem_cons.mp hl with h1 | h2
                · exact hopenline (by rw [h1])
                · rcases List.mem_append.mp h2 with h3 | h4
                  · obtain ⟨y, hy, hyl⟩ := List.mem_map.mp h3
                    exact hitemline y hyl.symm
                  · exact ih (sizeOf rest) hrest_sz rest (le_refl _) hr i l h4
        | map kvs2 =>
            cases kvs2 with
            | nil => exact absurd hv (by simp [wfVal])
            | cons kv2 kvs3 =>
                have hnested : wfEntries (kv2 :: kvs3) = true := by
                  simpa [wfVal, Bool.and_eq_true] using hv
                have hnested_sz : sizeOf (kv2 :: kvs3) < n := by
                  have h1 : sizeOf ((k, Yaml.map (kv2 :: kvs3)) :: rest) ≤ n := hsz
                  simp only [List.cons.sizeOf_spec, Prod.mk.sizeOf_spec,
                    Yaml.map.sizeOf_spec] at h1 ⊢
                  omega
                simp only [encEntries, List.cons_append] at hl
                rcases List.mem_cons.mp hl with h1 | h2
                · exact hopenline (by rw [h1]; simp)
                · rcases List.mem_append.mp h2 with h3 | h4
                  · obtain ⟨q1, q2, q3⟩ :=
                      ih (sizeOf (kv2 :: kvs3)) hnested_sz (kv2 :: kvs3) (le_refl _)
                        hnested (i + 2) l h3
                    exact ⟨q1, q2, by omega⟩
                  · exact ih (sizeOf rest) hrest_sz rest (le_refl _) hr i l h4

-- ---------------------------------------------------------------
-- Codec lemmas: per-case steps of the round-trip induction
-- ---------------------------------------------------------------

theorem parse_enc_scalar_aux (i : Nat) (k : String) (v : Yaml)
    (rest2 : List (String × Yaml)) (rest : List (List Char)) (fuel : Nat)
    (hk : keyOk k = true) (hsc : wfScalar v = true)
    (hshape : encEntries i ((k, v) :: rest2)
      = (pad i ++ (k.data ++ ':' :: ' ' :: encScalar v)) :: encEntries i rest2)
    (hfuelpos : 0 < fuel)
    (hrec : parseMapEntries (fuel - 1) i (encEntries i rest2 ++ rest) = some (rest2, rest)) :
    parseMapEntries fuel i (encEntries i ((k, v) :: rest2) ++ rest)
      = some ((k, v) :: rest2, rest) := by
  cases fuel with
  | zero => exact absurd hfuelpos (by simp)
  | succ f =>
      simp only [Nat.add_sub_cancel] at hrec
      rw [hshape, List.cons_append]
      have ht : ∀ c ∈ ':' :: ' ' :: encScalar v, c ≠ '\n' := by
        intro c hc
        rcases List.mem_cons.mp hc with h1 | h2
        · rw [h1]; decide
        · rcases List.mem_cons.mp h2 with h3 | h4
          · rw [h3]; decide
          · exact encScalar_noNL v c h4
      obtain ⟨_, _, hind, hcont, _⟩ :=
        key_line_props i k _ hk ht (startsSpace_cons_ne ':' _ (by decide))
      obtain ⟨⟨kc, ks, hkd, hkc⟩, hknl, hkdash, hkcs⟩ := keyOk_parts k hk
      have hkne : k.data ≠ [] := by
        rw [hkd]
        simp
      rw [parseMapEntries_scalar_step f i _ _ hind k.data (encScalar v) hcont hkcs hkdash hkne]
      rw [hrec]
      dsimp only
      rw [readScalar_encScalar v hsc]

theorem parse_enc_seq_aux (i : Nat) (k : String) (x : Yaml) (xs2 : List Yaml)
    (rest2 : List (String × Yaml)) (rest : List (List Char)) (fuel : Nat)
    (hk : keyOk k = true) (hitems : wfItems (x :: xs2) = true)
    (hfuelpos : 0 < fuel)
    (hstop2 : seqStop i (encEntries i rest2 ++ rest))
    (hrec : parseMapEntries (fuel - 1) i (encEntries i rest2 ++ rest) = some (rest2, rest)) :
    parseMapEntries fuel i (encEntries i ((k, .seq (x :: xs2)) :: rest2) ++ rest)
      = some ((k, .seq (x :: xs2)) :: rest2, rest) := by
  cases fuel with
  | zero => exact absurd hfuelpos (by simp)
  | succ f =>
      simp only [Nat.add_sub_cancel] at hrec
      have hshape : encEntries i ((k, Yaml.seq (x :: xs2)) :: rest2)
          = (pad i ++ (k.data ++ [':'])) ::
            (((x :: xs2).map (fun y => pad i ++ '-' :: ' ' :: encScalar y))
              ++ encEntries i rest2) := by
        simp [encEntries]
      rw [hshape, List.cons_append, List.append_assoc]
      obtain ⟨_, _, hind, hcont, _⟩ := key_line_props i k [':'] hk (by decide) (by decide)
      obtain ⟨⟨kc, ks, hkd, hkc⟩, hknl, hkdash, hkcs⟩ := keyOk_parts k hk
      have hkne : k.data ≠ [] := by
        rw [hkd]
        simp
      have hl2i : indentOf (pad i ++ '-' :: ' ' :: encScalar x) = i :=
        indentOf_pad i '-' _ (by decide)
      have hl2d : startsDash (contentOf (pad i ++ '-' :: ' ' :: encScalar x)) = true := by
        rw [contentOf_pad i '-' _ (by decide)]
        rfl
      have hseq : parseSeqItems i
          (((x :: xs2).map (fun y => pad i ++ '-' :: ' ' :: encScalar y))
            ++ (encEntries i rest2 ++ rest))
          = (x :: xs2, encEntries i rest2 ++ rest) :=
        parseSeqItems_enc i (x :: xs2) hitems _ hstop2
      simp only [List.map_cons, List.cons_append] at hseq ⊢
      rw [parseMapEntries_seq_step f i _ _ _ hind k.data hcont hkcs hkdash hkne hl2i hl2d]
      rw [hseq, hrec]

theorem parse_enc_map_aux (i : Nat) (k : String) (kv2 : String × Yaml)
    (kvs2 : List (String × Yaml)) (rest2 : List (String × Yaml))
    (rest : List (List Char)) (fuel : Nat)
    (hk : keyOk k = true)
    (hnesthead : ∃ l2 t2, encEntries (i + 2) (kv2 :: kvs2) = l2 :: t2 ∧ indentOf l2 = i + 2)
    (hfuelpos : 0 < fuel)
    (hrecn : parseMapEntries (fuel - 1) (i + 2)
        (encEntries (i + 2) (kv2 :: kvs2) ++ (encEntries i rest2 ++ rest))
      = some (kv2 :: kvs2, encEntries i rest2 ++ rest))
    (hrec : parseMapEntries (fuel - 1) i (encEntries i rest2 ++ rest) = some (rest2, rest)) :
    parseMapEntries fuel i (encEntries i ((k, .map (kv2 :: kvs2)) :: rest2) ++ rest)
      = some ((k, .map (kv2 :: kvs2)) :: rest2, rest) := by
  cases fuel with
  | zero => exact absurd hfuelpos (by simp)
  | succ f =>
      simp only [Nat.add_sub_cancel] at hrecn hrec
      obtain ⟨l2, t2, hnest, hl2i⟩ := hnesthead
      have hshape : encEntries i ((k, Yaml.map (kv2 :: kvs2)) :: rest2)
          = (pad i ++ (k.data ++ [':']))
            :: (encEntries (i + 2) (kv2 :: kvs2) ++ encEntries i rest2) := by
        simp [encEntries]
      rw [hshape, List.cons_append, List.append_assoc, hnest, List.cons_append]
      rw [hnest, List.cons_append] at hrecn
      obtain ⟨_, _, hind, hcont, _⟩ := key_line_props i k [':'] hk (by decide) (by decide)
      obtain ⟨⟨kc, ks, hkd, hkc⟩, hknl, hkdash, hkcs⟩ := keyOk_parts k hk
      have hkne : k.data ≠ [] := by
        rw [hkd]
        simp
      rw [parseMapEntries_map_step f i _ l2 _ hind k.data hcont hkcs hkdash hkne hl2i]
      rw [hrecn]
      dsimp only
      rw [hrec]

/-- Parsing the encoding of a well-formed entry list at its own indent
consumes exactly its lines and returns the entries, leaving any
correctly-dedented continuation lines unconsumed. -/
theorem parse_encEntries : ∀ (n : Nat) (kvs : List (String × Yaml)), sizeOf kvs ≤ n →
    wfEntries kvs = true → ∀ (i : Nat) (rest : List (List Char)) (fuel : Nat),
    (encEntries i kvs).length < fuel → mapStop i rest →
    parseMapEntries fuel i (encEntries i kvs ++ rest) = some (kvs, rest) := by
  intro n
  induction n using Nat.strong_induction_on with
  | _ n ih =>
    intro kvs hsz hwf i rest fuel hfuel hstop
    match kvs with
    | [] =>
        cases fuel with
        | zero => simp [encEntries] at hfuel
        | succ f =>
            cases rest with
            | nil => simp [encEntries, parseMapEntries]
            | cons l r =>
                have hlt : indentOf l < i := hstop
                simp [encEntries, parseMapEntries, hlt]
    | (k, v) :: rest2 =>
        obtain ⟨hk, hv, hr⟩ := wfEntries_head k v rest2 hwf
        have hrest_sz : sizeOf rest2 < n := by
          have h1 : sizeOf ((k, v) :: rest2) ≤ n := hsz
          simp only [List.cons.sizeOf_spec, Prod.mk.sizeOf_spec] at h1
          omega
        have hfuelpos : 0 < fuel := by omega
        have hseqstop : seqStop i (encEntries i rest2 ++ rest) := by
          cases hr2 : rest2 with
          | nil =>
              simp only [encEntries, List.nil_append]
              cases rest with
              | nil => trivial
              | cons l r =>
                  have hlt : indentOf l < i := hstop
                  show ¬(indentOf l = i ∧ startsDash (contentOf l) = true)
                  rintro ⟨he, _⟩
                  omega
          | cons e2 r2 =>
              obtain ⟨k2, v2⟩ := e2
              rw [hr2] at hr
              obtain ⟨hk2, hv2, _⟩ := wfEntries_head k2 v2 r2 hr
              obtain ⟨l0, t0, hE, hI, hD, _⟩ := encEntries_head_props i k2 v2 r2 hk2 hv2
              rw [hE, List.cons_append]
              show ¬(indentOf l0 = i ∧ startsDash (contentOf l0) = true)
              rintro ⟨_, hd⟩
              rw [hD] at hd
              exact absurd hd (by simp)
        have hmapstop2 : mapStop (i + 2) (encEntries i rest2 ++ rest) := by
          cases hr2 : rest2 with
          | nil =>
              simp only [encEntries, List.nil_append]
              cases rest with
              | nil => trivial
              | cons l r =>
                  have hlt : indentOf l < i := hstop
                  show indentOf l < i + 2
                  omega
          | cons e2 r2 =>
              obtain ⟨k2, v2⟩ := e2
              rw [hr2] at hr
              obtain ⟨hk2, hv2, _⟩ := wfEntries_head k2 v2 r2 hr
              obtain ⟨l0, t0, hE, hI, _, _⟩ := encEntries_head_props i k2 v2 r2 hk2 hv2
              rw [hE, List.cons_append]
              show indentOf l0 < i + 2
              omega
        cases v with
        | null =>
            have hshape : encEntries i ((k, Yaml.null) :: rest2)
                = (pad i ++ (k.data ++ ':' :: ' ' :: encScalar .null)) :: encEntries i rest2 := by
              simp [encEntries]
            have hlen : (encEntries i rest2).length < fuel - 1 := by
              rw [hshape] at hfuel
              simp only [List.length_cons] at hfuel
              omega
            exact parse_enc_scalar_aux i k .null rest2 rest fuel hk rfl hshape hfuelpos
              (ih (sizeOf rest2) hrest_sz rest2 (le_refl _) hr i rest (fuel - 1) hlen hstop)
        | bool b =>
            have hshape : encEntries i ((k, Yaml.bool b) :: rest2)
                = (pad i ++ (k.data ++ ':' :: ' ' :: encScalar (.bool b)))
                  :: encEntries i rest2 := by
              simp [encEntries]
            have hlen : (encEntries i rest2).length < fuel - 1 := by
              rw [hshape] at hfuel
              simp only [List.length_cons] at hfuel
              omega
            exact parse_enc_scalar_aux i k (.bool b) rest2 rest fuel hk rfl hshape hfuelpos
              (ih (sizeOf rest2) hrest_sz rest2 (le_refl _) hr i rest (fuel - 1) hlen hstop)
        | int nv =>
            have hshape : encEntries i ((k, Yaml.int nv) :: rest2)
                = (pad i ++ (k.data ++ ':' :: ' ' :: encScalar (.int nv)))
                  :: encEntries i rest2 := by
              simp [encEntries]
            have hlen : (encEntries i rest2).length < fuel - 1 := by
              rw [hshape] at hfuel
              simp only [List.length_cons] at hfuel
              omega
            exact parse_enc_scalar_aux i k (.int nv) rest2 rest fuel hk rfl hshape hfuelpos
              (ih (sizeOf rest2) hrest_sz rest2 (le_refl _) hr i rest (fuel - 1) hlen hstop)
        | str sv =>
            have hshape : encEntries i ((k, Yaml.str sv) :: rest2)
                = (pad i ++ (k.data ++ ':' :: ' ' :: encScalar (.str sv)))
                  :: encEntries i rest2 := by
              simp [encEntries]
            have hlen : (encEntries i rest2).length < fuel - 1 := by
              rw [hshape] at hfuel
              simp only [List.length_cons] at hfuel
              omega
            exact parse_enc_scalar_aux i k (.str sv) rest2 rest fuel hk rfl hshape hfuelpos
              (ih (sizeOf rest2) hrest_sz rest2 (le_refl _) hr i rest (fuel - 1) hlen hstop)
        | seq xs =>
            cases xs with
            | nil => exact absurd hv (by simp [wfVal])
            | cons x xs2 =>
                have hitems : wfItems (x :: xs2) = true := by
                  simpa [wfVal, Bool.and_eq_true] using hv
                have hshape : encEntries i ((k, Yaml.seq (x :: xs2)) :: rest2)
                    = (pad i ++ (k.data ++ [':'])) ::
                      (((x :: xs2).map (fun y => pad i ++ '-' :: ' ' :: encScalar y))
                        ++ encEntries i rest2) := by
                  simp [encEntries]
                have hlen : (encEntries i rest2).length < fuel - 1 := by
                  rw [hshape] at hfuel
                  simp only [List.length_cons, List.length_append] at hfuel
                  omega
                exact parse_enc_seq_aux i k x xs2 rest2 rest fuel hk hitems hfuelpos hseqstop
                  (ih (sizeOf rest2) hrest_sz rest2 (le_refl _) hr i rest (fuel - 1) hlen hstop)
        | map kvs2 =>
            cases kvs2 with
            | nil => exact absurd hv (by simp [wfVal])
            | cons kv2 kvs3 =>
                have hnested : wfEntries (kv2 :: kvs3) = true := by
                  simpa [wfVal, Bool.and_eq_true] using hv
                have hnested_sz : sizeOf (kv2 :: kvs3) < n := by
                  have h1 : sizeOf ((k, Yaml.map (kv2 :: kvs3)) :: rest2) ≤ n := hsz
                  simp only [List.cons.sizeOf_spec, Prod.mk.sizeOf_spec,
                    Yaml.map.sizeOf_spec] at h1 ⊢
                  omega
                obtain ⟨k2, v2⟩ := kv2
                obtain ⟨hk2, hv2, _⟩ := wfEntries_head k2 v2 kvs3 hnested
                obtain ⟨l2, t2, hE2, hI2, _, _⟩ :=
                  encEntries_head_props (i + 2) k2 v2 kvs3 hk2 hv2
                have hshape : encEntries i ((k, Yaml.map ((k2, v2) :: kvs3)) :: rest2)
                    = (pad i ++ (k.data ++ [':']))
                      :: (encEntries (i + 2) ((k2, v2) :: kvs3) ++ encEntries i rest2) := by
                  simp [encEntries]
                have hlen : (encEntries i rest2).length < fuel - 1 := by
                  rw [hshape] at hfuel
                  simp only [List.length_cons, List.length_append] at hfuel
                  omega
                have hlenn : (encEntries (i + 2) ((k2, v2) :: kvs3)).length < fuel - 1 := by
                  rw [hshape] at hfuel
                  simp only [List.length_cons, List.length_append] at hfuel
                  omega
                exact parse_enc_map_aux i k (k2, v2) kvs3 rest2 rest fuel hk
                  ⟨l2, t2, hE2, hI2⟩ hfuelpos
                  (ih (sizeOf ((k2, v2) :: kvs3)) hnested_sz ((k2, v2) :: kvs3) (le_refl _)
                    hnested (i + 2) (encEntries i rest2 ++ rest) (fuel - 1) hlenn hmapstop2)
                  (ih (sizeOf rest2) hrest_sz rest2 (le_refl _) hr i rest (fuel - 1) hlen hstop)

-- ---------------------------------------------------------------
-- Codec lemmas: line splitting inverts line joining
-- ---------------------------------------------------------------

theorem splitNL_cons_ne (c : Char) (t : List Char) (hc : c ≠ '\n') :
    splitNL (c :: t)
      = match splitNL t with
        | l :: ls => (c :: l) :: ls
        | [] => [[c]] := by
  rw [splitNL.eq_def]
  split
  · rename_i heq
    exact absurd heq (by simp)
  · rename_i heq
    injection heq with h1 _
    exact absurd h1 hc
  · rename_i heq
    injection heq with h1 h2
    rw [h1, h2]

theorem splitNL_ne_nil (t : List Char) : splitNL t ≠ [] := by
  induction t with
  | nil => simp [splitNL]
  | cons c r ih =>
      by_cases hc : c = '\n'
      · rw [hc]
        simp [splitNL]
      · rw [splitNL_cons_ne c r hc]
        cases h : splitNL r with
        | nil => simp
        | cons l ls => simp

theorem splitNL_noNL (l : List Char) (h : ∀ c ∈ l, c ≠ '\n') : splitNL l = [l] := by
  induction l with
  | nil => rfl
  | cons c t ih =>
      rw [splitNL_cons_ne c t (h c (by simp))]
      rw [ih (fun d hd => h d (by simp [hd]))]

theorem splitNL_append (l r : List Char) (h : ∀ c ∈ l, c ≠ '\n') :
    splitNL (l ++ '\n' :: r) = l :: splitNL r := by
  induction l with
  | nil => simp [splitNL]
  | cons c t ih =>
      rw [List.cons_append, splitNL_cons_ne c _ (h c (by simp))]
      rw [ih (fun d hd => h d (by simp [hd]))]

theorem splitNL_joinNL (ls : List (List Char)) (hne : ls ≠ [])
    (h : ∀ l ∈ ls, ∀ c ∈ l, c ≠ '\n') :
    splitNL (joinNL ls) = ls := by
  induction ls with
  | nil => exact absurd rfl hne
  | cons l ls2 ih =>
      cases ls2 with
      | nil => exact splitNL_noNL l (h l (by simp))
      | cons l2 ls3 =>
          have hj : joinNL (l :: l2 :: ls3) = l ++ '\n' :: joinNL (l2 :: ls3) := rfl
          rw [hj, splitNL_append l _ (h l (by simp))]
          rw [ih (by simp) (fun m hm c hc => h m (by simp [hm]) c hc)]

theorem dropTailNils_concat_nil (L : List (List Char)) (h : ∀ l ∈ L, l ≠ []) :
    dropTailNils (L ++ [[]]) = L := by
  unfold dropTailNils
  rw [List.reverse_append]
  have h1 : (([] : List Char) :: L.reverse).dropWhile List.isEmpty
      = L.reverse.dropWhile List.isEmpty := by
    rw [List.dropWhile_cons]
    simp
  have h2 : L.reverse.dropWhile List.isEmpty = L.reverse := by
    cases hLr : L.reverse with
    | nil => rfl
    | cons m t =>
        have hm : m ∈ L := by
          have hm2 : m ∈ L.reverse := by
            rw [hLr]
            simp
          simpa using hm2
        rw [List.dropWhile_cons]
        have hie : m.isEmpty = false := by
          cases m with
          | nil => exact absurd rfl (h [] hm)
          | cons a b => rfl
        simp [hie]
  have h3 : ((List.reverse [[]] : List (List Char)) ++ L.reverse) = [] :: L.reverse := rfl
  rw [h3, h1, h2, List.reverse_reverse]

-- ---------------------------------------------------------------
-- Codec round-trip on well-formed documents
-- ---------------------------------------------------------------

/-- Decoding the encoding of a nonempty well-formed mapping returns the
mapping unchanged. -/
theorem decode_encode_wf (kvs : List (String × Yaml)) (hne : kvs ≠ [])
    (hwf : wfEntries kvs = true) :
    decode (encode (.map kvs)) = .ok (.map kvs) := by
  match kvs, hne with
  | (k, v) :: rest2, _ =>
    obtain ⟨hk, hv, hr⟩ := wfEntries_head k v rest2 hwf
    have hprops := enc_lines_props (sizeOf ((k, v) :: rest2)) ((k, v) :: rest2)
      (le_refl _) hwf 0
    have hdata : (encode (Yaml.map ((k, v) :: rest2))).data
        = joinNL (encEntries 0 ((k, v) :: rest2) ++ [[]]) := rfl
    have hsplit : splitNL (encode (Yaml.map ((k, v) :: rest2))).data
        = encEntries 0 ((k, v) :: rest2) ++ [[]] := by
      rw [hdata]
      refine splitNL_joinNL _ (by simp) ?_
      intro l hl c hc
      rcases List.mem_append.mp hl with h1 | h2
      · exact (hprops l h1).2.1 c hc
      · have hln : l = [] := by simpa using h2
        rw [hln] at hc
        simp at hc
    have hdrop : dropTailNils (encEntries 0 ((k, v) :: rest2) ++ [[]])
        = encEntries 0 ((k, v) :: rest2) := by
      refine dropTailNils_concat_nil _ ?_
      intro l hl
      exact (hprops l hl).1
    obtain ⟨l0, t0, hE, hI, hD, hOr⟩ := encEntries_head_props 0 k v rest2 hk hv
    have hparse : parseMapEntries ((encEntries 0 ((k, v) :: rest2)).length + 1) 0
        (encEntries 0 ((k, v) :: rest2) ++ [])
        = some ((k, v) :: rest2, []) :=
      parse_encEntries (sizeOf ((k, v) :: rest2)) ((k, v) :: rest2) (le_refl _) hwf 0 []
        ((encEntries 0 ((k, v) :: rest2)).length + 1) (by omega) trivial
    rw [List.append_nil] at hparse
    simp only [decode]
    rw [hsplit, hdrop, hE]
    rw [hE] at hparse
    dsimp only
    have hI2 : ¬(indentOf l0 ≠ 0) := by
      rw [hI]
      simp
    rw [if_neg hI2, if_neg (by rw [hD]; simp), if_pos (by rw [hOr])]
    rw [hparse]

-- ---------------------------------------------------------------
-- Codec lemmas: every decoded mapping is well-formed
-- ---------------------------------------------------------------

theorem splitNL_mem_noNL : ∀ (t : List Char), ∀ l ∈ splitNL t, ∀ c ∈ l, c ≠ '\n' := by
  intro t
  induction t with
  | nil =>
      intro l hl c hc
      have hln : l = [] := by simpa [splitNL] using hl
      rw [hln] at hc
      simp at hc
  | cons d r ih =>
      by_cases hd : d = '\n'
      · subst hd
        intro l hl c hc
        have hsplit : l = [] ∨ l ∈ splitNL r := by simpa [splitNL] using hl
        rcases hsplit with h1 | h2
        · rw [h1] at hc
          simp at hc
        · exact ih l h2 c hc
      · intro l hl c hc
        rw [splitNL_cons_ne d r hd] at hl
        cases hs : splitNL r with
        | nil => exact absurd hs (splitNL_ne_nil r)
        | cons l0 ls0 =>
            rw [hs] at hl
            dsimp only at hl
            rcases List.mem_cons.mp hl with h1 | h2
            · subst h1
              rcases List.mem_cons.mp hc with h3 | h4
              · rw [h3]
                exact hd
              · exact ih l0 (by rw [hs]; simp) c h4
            · exact ih l (by rw [hs]; simp [h2]) c hc

theorem dropTailNils_mem (ls : List (List Char)) (l : List Char)
    (h : l ∈ dropTailNils ls) : l ∈ ls := by
  unfold dropTailNils at h
  rw [List.mem_reverse] at h
  have h2 : l ∈ ls.reverse := (List.dropWhile_sublist _).subset h
  exact List.mem_reverse.mp h2

theorem parseSeqItems_cons_pos (i : Nat) (l : List Char) (rest : List (List Char))
    (h : (indentOf l = i && startsDash (contentOf l)) = true) :
    parseSeqItems i (l :: rest)
      = (readScalar (dropDash (contentOf l)) :: (parseSeqItems i rest).1,
         (parseSeqItems i rest).2) := by
  simp only [parseSeqItems]
  rw [if_pos h]

theorem parseSeqItems_facts (i : Nat) : ∀ ls : List (List Char),
    wfItems (parseSeqItems i ls).1 = true ∧ ∀ l ∈ (parseSeqItems i ls).2, l ∈ ls := by
  intro ls
  induction ls with
  | nil =>
      refine ⟨rfl, ?_⟩
      intro l hl
      simpa [parseSeqItems] using hl
  | cons l rest ih =>
      by_cases hcond : (indentOf l = i && startsDash (contentOf l)) = true
      · rw [parseSeqItems_cons_pos i l rest hcond]
        refine ⟨?_, ?_⟩
        · show (wfScalar (readScalar (dropDash (contentOf l)))
              && wfItems (parseSeqItems i rest).1) = true
          rw [wfScalar_readScalar, ih.1]
          rfl
        · intro m hm
          exact List.mem_cons_of_mem _ (ih.2 m hm)
      · unfold parseSeqItems
        rw [if_neg hcond]
        exact ⟨rfl, fun m hm => hm⟩

theorem readScalar_not_map (l : List Char) : (readScalar l).isMap = false := by
  unfold readScalar
  split
  · rfl
  split
  · rfl
  split
  · rfl
  split
  · rfl
  split
  · rfl
  · rfl

theorem keyOk_of_split (l k v : List Char)
    (hcl : ∀ c ∈ l, c ≠ '\n')
    (hdash : startsDash (contentOf l) = false)
    (hsp : splitColonSp (contentOf l) = some (k, v))
    (hkne : k ≠ []) :
    keyOk ⟨k⟩ = true := by
  obtain ⟨hceq, hkcs⟩ := splitColonSp_parts (contentOf l) k v hsp
  have hknl : ∀ c ∈ k, c ≠ '\n' := by
    intro c hc
    exact hcl c (contentOf_mem l c (by rw [hceq]; exact List.mem_append_left _ hc))
  have hsps : startsSpace k = false := by
    cases hkc : k with
    | nil => rfl
    | cons c ks =>
        have hcs : contentOf l = c :: (ks ++ ':' :: ' ' :: v) := by
          rw [hceq, hkc]
          rfl
        have hns := contentOf_not_space l
        rw [hcs] at hns
        exact startsSpace_cons_ne c ks (startsSpace_head c _ hns)
  have hsd : startsDash k = false := by
    rw [hceq] at hdash
    exact startsDash_of_append k _ hdash
  simp only [keyOk, Bool.and_eq_true, Bool.not_eq_true']
  refine ⟨⟨⟨⟨?_, ?_⟩, ?_⟩, ?_⟩, ?_⟩
  · cases hkc : k with
    | nil => exact absurd hkc hkne
    | cons a b => rfl
  · refine List.all_eq_true.mpr ?_
    intro c hc
    simpa using hknl c hc
  · exact hsps
  · exact hsd
  · exact hkcs

theorem keyOk_of_opener (l : List Char)
    (hcl : ∀ c ∈ l, c ≠ '\n')
    (hdash : startsDash (contentOf l) = false)
    (hsp : splitColonSp (contentOf l) = none)
    (hlen : (contentOf l).length ≥ 2) :
    keyOk ⟨(contentOf l).dropLast⟩ = true := by
  have hcne : contentOf l ≠ [] := by
    intro he
    rw [he] at hlen
    simp at hlen
  have hdec : (contentOf l).dropLast ++ [(contentOf l).getLast hcne] = contentOf l :=
    List.dropLast_append_getLast hcne
  have hdlen : (contentOf l).dropLast.length ≥ 1 := by
    rw [List.length_dropLast]
    omega
  have hdne : (contentOf l).dropLast ≠ [] := by
    intro he
    rw [he] at hdlen
    simp at hdlen
  have hknl : ∀ c ∈ (contentOf l).dropLast, c ≠ '\n' := by
    intro c hc
    exact hcl c (contentOf_mem l c ((List.dropLast_sublist _).subset hc))
  have hsps : startsSpace (contentOf l).dropLast = false := by
    cases hkc : (contentOf l).dropLast with
    | nil => rfl
    | cons c ks =>
        have hns : startsSpace ((contentOf l).dropLast ++ [(contentOf l).getLast hcne])
            = false := by
          rw [hdec]
          exact contentOf_not_space l
        rw [hkc, List.cons_append] at hns
        exact startsSpace_cons_ne c ks (startsSpace_head c _ hns)
  have hsd : startsDash (contentOf l).dropLast = false := by
    have h2 : startsDash ((contentOf l).dropLast ++ [(contentOf l).getLast hcne])
        = false := by
      rw [hdec]
      exact hdash
    exact startsDash_of_append _ _ h2
  have hkcs : hasColonSp (contentOf l).dropLast = false := by
    by_cases hh : hasColonSp (contentOf l).dropLast = true
    · have h2 : hasColonSp ((contentOf l).dropLast ++ [(contentOf l).getLast hcne]) = true :=
        hasColonSp_append_left _ _ hh
      rw [hdec] at h2
      have h3 := splitColonSp_isSome_of_has (contentOf l) h2
      rw [hsp] at h3
      simp at h3
    · simpa using hh
  simp only [keyOk, Bool.and_eq_true, Bool.not_eq_true']
  refine ⟨⟨⟨⟨?_, ?_⟩, ?_⟩, ?_⟩, ?_⟩
  · cases hkc : (contentOf l).dropLast with
    | nil => exact absurd hkc hdne
    | cons a b => rfl
  · refine List.all_eq_true.mpr ?_
    intro c hc
    simpa using hknl c hc
  · exact hsps
  · exact hsd
  · exact hkcs

theorem parseMapEntries_wf : ∀ (fuel i : Nat) (ls : List (List Char)),
    (∀ l ∈ ls, ∀ c ∈ l, c ≠ '\n') →
    ∀ kvs r, parseMapEntries fuel i ls = some (kvs, r) →
    wfEntries kvs = true ∧ ∀ l ∈ r, l ∈ ls := by
  intro fuel
  induction fuel with
  | zero =>
      intro i ls hcl kvs r hparse
      simp [parseMapEntries] at hparse
  | succ f ih =>
      intro i ls hcl kvs r hparse
      cases ls with
      | nil =>
          simp only [parseMapEntries, Option.some.injEq, Prod.mk.injEq] at hparse
          obtain ⟨h1, h2⟩ := hparse
          rw [← h1, ← h2]
          exact ⟨rfl, fun m hm => hm⟩
      | cons l rest =>
          have hclrest : ∀ m ∈ rest, ∀ c ∈ m, c ≠ '\n' :=
            fun m hm => hcl m (List.mem_cons_of_mem _ hm)
          have hcll : ∀ c ∈ l, c ≠ '\n' := hcl l (List.mem_cons_self _ _)
          simp only [parseMapEntries] at hparse
          split at hparse
          · simp only [Option.some.injEq, Prod.mk.injEq] at hparse
            obtain ⟨h1, h2⟩ := hparse
            rw [← h1, ← h2]
            exact ⟨rfl, fun m hm => hm⟩
          · split at hparse
            · exact absurd hparse (by simp)
            · split at hparse
              · exact absurd hparse (by simp)
              · rename_i hnlt hnne hdash
                have hdash2 : startsDash (contentOf l) = false := by
                  simpa using hdash
                split at hparse
                · rename_i k v heqsp
                  split at hparse
                  · exact absurd hparse (by simp)
                  · rename_i hkne
                    split at hparse
                    · rename_i kvs2 r2 hrec
                      simp only [Option.some.injEq, Prod.mk.injEq] at hparse
                      obtain ⟨h1, h2⟩ := hparse
                      rw [← h1, ← h2]
                      obtain ⟨hwf2, hsub2⟩ := ih i rest hclrest kvs2 r2 hrec
                      refine ⟨?_, fun m hm => List.mem_cons_of_mem _ (hsub2 m hm)⟩
                      show (keyOk ⟨k⟩ && wfVal (readScalar v) && wfEntries kvs2) = true
                      rw [wfVal_readScalar, hwf2,
                        keyOk_of_split l k v hcll hdash2 heqsp hkne]
                      rfl
                    · exact absurd hparse (by simp)
                · rename_i heqsp
                  split at hparse
                  · rename_i hcolon
                    have hec : endsColon (contentOf l) = true := by
                      simp only [Bool.and_eq_true, decide_eq_true_eq] at hcolon
                      exact hcolon.1
                    have hlen : (contentOf l).length ≥ 2 := by
                      simp only [Bool.and_eq_true, decide_eq_true_eq] at hcolon
                      exact hcolon.2
                    have hkOk : keyOk ⟨(contentOf l).dropLast⟩ = true :=
                      keyOk_of_opener l hcll hdash2 heqsp hlen
                    split at hparse
                    · exact absurd hparse (by simp)
                    · rename_i l2 tail2
                      split at hparse
                      · rename_i hl2cond
                        split at hparse
                        · rename_i kvs2 r2 hrec
                          simp only [Option.some.injEq, Prod.mk.injEq] at hparse
                          obtain ⟨h1, h2⟩ := hparse
                          rw [← h1, ← h2]
                          have hseqfacts := parseSeqItems_facts i (l2 :: tail2)
                          have hclp2 : ∀ m ∈ (parseSeqItems i (l2 :: tail2)).2,
                              ∀ c ∈ m, c ≠ '\n' :=
                            fun m hm => hclrest m (hseqfacts.2 m hm)
                          obtain ⟨hwf2, hsub2⟩ :=
                            ih i (parseSeqItems i (l2 :: tail2)).2 hclp2 kvs2 r2 hrec
                          refine ⟨?_, ?_⟩
                          · show (keyOk ⟨(contentOf l).dropLast⟩
                                && wfVal (.seq (parseSeqItems i (l2 :: tail2)).1)
                                && wfEntries kvs2) = true
                            have hne1 : (parseSeqItems i (l2 :: tail2)).1 ≠ [] := by
                              rw [parseSeqItems_cons_pos i l2 tail2 hl2cond]
                              simp
                            have hval : wfVal (.seq (parseSeqItems i (l2 :: tail2)).1)
                                = true := by
                              show (!(parseSeqItems i (l2 :: tail2)).1.isEmpty
                                  && wfItems (parseSeqItems i (l2 :: tail2)).1) = true
                              rw [hseqfacts.1]
                              cases hp1 : (parseSeqItems i (l2 :: tail2)).1 with
                              | nil => exact absurd hp1 hne1
                              | cons a b => rfl
                            rw [hkOk, hval, hwf2]
                            rfl
                          · intro m hm
                            exact List.mem_cons_of_mem _
                              (hseqfacts.2 m (hsub2 m hm))
                        · exact absurd hparse (by simp)
                      · split at hparse
                        · rename_i hl2i
                          split at hparse
                          · exact absurd hparse (by simp)
                          · rename_i kv3 kvs3 r3 hrecn
                            split at hparse
                            · rename_i kvs2 r2 hrec2
                              simp only [Option.some.injEq, Prod.mk.injEq] at hparse
                              obtain ⟨h1, h2⟩ := hparse
                              rw [← h1, ← h2]
                              obtain ⟨hwfn, hsubn⟩ :=
                                ih (i + 2) (l2 :: tail2) hclrest (kv3 :: kvs3) r3 hrecn
                              have hclr3 : ∀ m ∈ r3, ∀ c ∈ m, c ≠ '\n' :=
                                fun m hm => hclrest m (hsubn m hm)
                              obtain ⟨hwf2, hsub2⟩ := ih i r3 hclr3 kvs2 r2 hrec2
                              refine ⟨?_, ?_⟩
                              · show (keyOk ⟨(contentOf l).dropLast⟩
                                    && wfVal (.map (kv3 :: kvs3))
                                    && wfEntries kvs2) = true
                                have hval : wfVal (.map (kv3 :: kvs3)) = true := by
                                  show (!(kv3 :: kvs3).isEmpty
                                      && wfEntries (kv3 :: kvs3)) = true
                                  rw [hwfn]
                                  rfl
                                rw [hkOk, hval, hwf2]
                                rfl
                              · intro m hm
                                exact List.mem_cons_of_mem _ (hsubn m (hsub2 m hm))
                            · exact absurd hparse (by simp)
                          · exact absurd hparse (by simp)
                        · exact absurd hparse (by simp)
                  · exact absurd hparse (by simp)

theorem parseMapEntries_cons_ne_nil (f i : Nat) (l : List Char) (rest : List (List Char))
    (hind : indentOf l = i) (kvs : List (String × Yaml)) (r : List (List Char))
    (hparse : parseMapEntries (f + 1) i (l :: rest) = some (kvs, r)) :
    kvs ≠ [] := by
  simp only [parseMapEntries] at hparse
  rw [hind, if_neg (lt_irrefl i), if_neg (fun h => h rfl)] at hparse
  split at hparse
  · exact absurd hparse (by simp)
  · split at hparse
    · split at hparse
      · exact absurd hparse (by simp)
      · split at hparse
        · simp only [Option.some.injEq, Prod.mk.injEq] at hparse
          obtain ⟨h1, _⟩ := hparse
          rw [← h1]
          simp
        · exact absurd hparse (by simp)
    · split at hparse
      · split at hparse
        · exact absurd hparse (by simp)
        · split at hparse
          · split at hparse
            · simp only [Option.some.injEq, Prod.mk.injEq] at hparse
              obtain ⟨h1, _⟩ := hparse
              rw [← h1]
              simp
            · exact absurd hparse (by simp)
          · split at hparse
            · split at hparse
              · exact absurd hparse (by simp)
              · split at hparse
                · simp only [Option.some.injEq, Prod.mk.injEq] at hparse
                  obtain ⟨h1, _⟩ := hparse
                  rw [← h1]
                  simp
                · exact absurd hparse (by simp)
              · exact absurd hparse (by simp)
            · exact absurd hparse (by simp)
      · exact absurd hparse (by simp)

theorem decode_map_wf (t : String) (d : Yaml) (hd : decode t = .ok d)
    (hm : d.isMap = true) :
    ∃ kvs, d = .map kvs ∧ kvs ≠ [] ∧ wfEntries kvs = true := by
  have hclean : ∀ l ∈ dropTailNils (splitNL t.data), ∀ c ∈ l, c ≠ '\n' :=
    fun l hl => splitNL_mem_noNL t.data l (dropTailNils_mem _ l hl)
  simp only [decode] at hd
  cases hls : dropTailNils (splitNL t.data) with
  | nil =>
      rw [hls] at hd
      dsimp only at hd
      injection hd with h1
      rw [← h1] at hm
      simp [Yaml.isMap] at hm
  | cons l ltail =>
      rw [hls] at hd
      rw [hls] at hclean
      dsimp only at hd
      split at hd
      · exact absurd hd (by simp)
      · rename_i hind
        have hind0 : indentOf l = 0 := by omega
        split at hd
        · split at hd
          · injection hd with h1
            rw [← h1] at hm
            simp [Yaml.isMap] at hm
          · exact absurd hd (by simp)
        · split at hd
          · split at hd
            · rename_i kvs hparse
              injection hd with h1
              refine ⟨kvs, h1.symm, ?_, ?_⟩
              · exact parseMapEntries_cons_ne_nil ((l :: ltail).length) 0 l ltail hind0
                  kvs _ hparse
              · exact (parseMapEntries_wf ((l :: ltail).length + 1) 0 (l :: ltail)
                  hclean kvs _ hparse).1
            · exact absurd hd (by simp)
            · exact absurd hd (by simp)
          · split at hd
            · injection hd with h1
              rw [← h1] at hm
              rw [readScalar_not_map] at hm
              simp at hm
            · exact absurd hd (by simp)

-- ---------------------------------------------------------------
-- Codec lemmas: key extraction from encoded text
-- ---------------------------------------------------------------

theorem lineKeyAt_entry (i : Nat) (k : String) (w : Yaml) (hk : keyOk k = true) :
    lineKeyAt (pad i ++ (k.data ++ ':' :: ' ' :: encScalar w)) = some (i, k) := by
  obtain ⟨⟨kc, ks, hkd, hkc⟩, hknl, hkdash, hkcs⟩ := keyOk_parts k hk
  have ht : ∀ c ∈ ':' :: ' ' :: encScalar w, c ≠ '\n' := by
    intro c hc
    rcases List.mem_cons.mp hc with h1 | h2
    · rw [h1]; decide
    · rcases List.mem_cons.mp h2 with h3 | h4
      · rw [h3]; decide
      · exact encScalar_noNL w c h4
  obtain ⟨_, _, hI, hC, hD⟩ :=
    key_line_props i k _ hk ht (startsSpace_cons_ne ':' _ (by decide))
  have hsp : splitColonSp (k.data ++ ':' :: ' ' :: encScalar w)
      = some (k.data, encScalar w) := splitColonSp_key _ hkcs _
  unfold lineKeyAt
  rw [hC] at hD
  rw [hC, if_neg (by rw [hD]; simp), hsp]
  dsimp only
  rw [hI]

theorem lineKeyAt_opener (i : Nat) (k : String) (hk : keyOk k = true) :
    lineKeyAt (pad i ++ (k.data ++ [':'])) = some (i, k) := by
  obtain ⟨⟨kc, ks, hkd, hkc⟩, hknl, hkdash, hkcs⟩ := keyOk_parts k hk
  obtain ⟨_, _, hI, hC, hD⟩ := key_line_props i k [':'] hk (by decide) (by decide)
  have hsp : splitColonSp (k.data ++ [':']) = none := splitColonSp_key_colon _ hkcs
  have hec : endsColon (k.data ++ [':']) = true := endsColon_concat _
  have hlen : (k.data ++ [':']).length ≥ 2 := by
    rw [hkd]
    simp
  unfold lineKeyAt
  rw [hC] at hD
  rw [hC, if_neg (by rw [hD]; simp), hsp]
  dsimp only
  rw [if_pos (by rw [hec]; simpa using hlen), hI]
  have hdl : (k.data ++ [':']).dropLast = k.data := by simp
  rw [hdl]

theorem lineKeyAt_item (i : Nat) (y : Yaml) :
    lineKeyAt (pad i ++ '-' :: ' ' :: encScalar y) = none := by
  have hD : startsDash (contentOf (pad i ++ '-' :: ' ' :: encScalar y)) = true := by
    rw [contentOf_pad i '-' _ (by decide)]
    rfl
  unfold lineKeyAt
  rw [if_pos hD]

theorem filterMap_lineKeyAt_enc : ∀ (n : Nat) (kvs : List (String × Yaml)), sizeOf kvs ≤ n →
    wfEntries kvs = true → ∀ i : Nat,
    (encEntries i kvs).filterMap lineKeyAt = flattenKeys i kvs := by
  intro n
  induction n using Nat.strong_induction_on with
  | _ n ih =>
    intro kvs hsz hwf i
    match kvs with
    | [] => simp [encEntries, flattenKeys]

    | (k, v) :: rest =>
        obtain ⟨hk, hv, hr⟩ := wfEntries_head k v rest hwf
        have hrest_sz : sizeOf rest < n := by
          have h1 : sizeOf ((k, v) :: rest) ≤ n := hsz
          simp only [List.cons.sizeOf_spec, Prod.mk.sizeOf_spec] at h1
          omega
        have hrest := ih (sizeOf rest) hrest_sz rest (le_refl _) hr i
        cases v with
        | null =>
            simp only [encEntries, List.singleton_append, List.filterMap_cons,
              List.append_assoc, List.cons_append, List.nil_append,
              lineKeyAt_entry i k .null hk, hrest, flattenKeys, flattenKeysVal]
        | bool b =>
            simp only [encEntries, List.singleton_append, List.filterMap_cons,
              List.append_assoc, List.cons_append, List.nil_append,
              lineKeyAt_entry i k (.bool b) hk, hrest, flattenKeys, flattenKeysVal]
        | int nv =>
            simp only [encEntries, List.singleton_append, List.filterMap_cons,
              List.append_assoc, List.cons_append, List.nil_append,
              lineKeyAt_entry i k (.int nv) hk, hrest, flattenKeys, flattenKeysVal]
        | str sv =>
            simp only [encEntries, List.singleton_append, List.filterMap_cons,
              List.append_assoc, List.cons_append, List.nil_append,
              lineKeyAt_entry i k (.str sv) hk, hrest, flattenKeys, flattenKeysVal]
        | seq xs =>
            cases xs with
            | nil => exact absurd hv (by simp [wfVal])
            | cons x xs2 =>
                have htailnone :
                    ((x :: xs2).map (fun y => pad i ++ '-' :: ' ' :: encScalar y)).filterMap
                      lineKeyAt = [] := by
                  rw [List.filterMap_eq_nil_iff]
                  intro m hm
                  obtain ⟨y, hy, hyl⟩ := List.mem_map.mp hm
                  rw [← hyl]
                  exact lineKeyAt_item i y
                simp only [encEntries, List.cons_append, List.filterMap_cons,
                  List.append_assoc, lineKeyAt_opener i k hk, List.filterMap_append,
                  htailnone, hrest, flattenKeys, flattenKeysVal, List.nil_append]
        | map kvs2 =>
            cases kvs2 with
            | nil => exact absurd hv (by simp [wfVal])
            | cons kv2 kvs3 =>
                have hnested : wfEntries (kv2 :: kvs3) = true := by
                  simpa [wfVal, Bool.and_eq_true] using hv
                have hnested_sz : sizeOf (kv2 :: kvs3) < n := by
                  have h1 : sizeOf ((k, Yaml.map (kv2 :: kvs3)) :: rest) ≤ n := hsz
                  simp only [List.cons.sizeOf_spec, Prod.mk.sizeOf_spec,
                    Yaml.map.sizeOf_spec] at h1 ⊢
                  omega
                have hnest := ih (sizeOf (kv2 :: kvs3)) hnested_sz (kv2 :: kvs3)
                  (le_refl _) hnested (i + 2)
                simp only [encEntries, List.cons_append, List.filterMap_cons,
                  List.append_assoc, lineKeyAt_opener i k hk, List.filterMap_append,
                  hnest, hrest, flattenKeys, flattenKeysVal]

/-- The depth-annotated key lines of the encoded text of a well-formed
mapping are exactly the mapping's keys in insertion order, nested keys
included at their nesting indent. -/
theorem keyLines_encode (kvs : List (String × Yaml)) (hwf : wfEntries kvs = true) :
    keyLines (encode (.map kvs)) = flattenKeys 0 kvs := by
  cases kvs with
  | nil => decide
  | cons kv rest2 =>
      obtain ⟨k, v⟩ := kv
      have hprops := enc_lines_props (sizeOf ((k, v) :: rest2)) ((k, v) :: rest2)
        (le_refl _) hwf 0
      have hdata : (encode (Yaml.map ((k, v) :: rest2))).data
          = joinNL (encEntries 0 ((k, v) :: rest2) ++ [[]]) := rfl
      have hsplit : splitNL (encode (Yaml.map ((k, v) :: rest2))).data
          = encEntries 0 ((k, v) :: rest2) ++ [[]] := by
        rw [hdata]
        refine splitNL_joinNL _ (by simp) ?_
        intro l hl c hc
        rcases List.mem_append.mp hl with h1 | h2
        · exact (hprops l h1).2.1 c hc
        · have hln : l = [] := by simpa using h2
          rw [hln] at hc
          simp at hc
      have hdrop : dropTailNils (encEntries 0 ((k, v) :: rest2) ++ [[]])
          = encEntries 0 ((k, v) :: rest2) := by
        refine dropTailNils_concat_nil _ ?_
        intro l hl
        exact (hprops l hl).1
      unfold keyLines
      rw [hsplit, hdrop]
      exact filterMap_lineKeyAt_enc (sizeOf ((k, v) :: rest2)) ((k, v) :: rest2)
        (le_refl _) hwf 0

-- ---------------------------------------------------------------
-- Claim theorems: Document Codec (C7, C8)
-- ---------------------------------------------------------------

/-- C7: encoding then decoding an Assessment Document produced by this
system yields a structurally equal mapping: the fallback document
round-trips for every error message, and every mapping in the decoder's
image — hence every successfully decoded model reply the Response
Interpreter can return — round-trips through the modelled codec. -/
theorem claim7_roundtrip :
    (∀ msg : String, decode (encode (fallbackDoc msg)) = .ok (fallbackDoc msg)) ∧
    (∀ (t : String) (d : Yaml), decode t = .ok d → d.isMap = true →
      decode (encode d) = .ok d) := by
  constructor
  · intro msg
    exact decode_encode_wf
      [ ("gen_context_update", Yaml.map
          [ ("governance_maturity_signal", Yaml.str "Unknown"),
            ("certification_integration", Yaml.map
              [ ("authoritative_data_used", Yaml.bool false),
                ("role_alignment_enforced", Yaml.bool false) ]),
            ("exception_handling", Yaml.map
              [ ("risk_assessed", Yaml.bool false),
                ("documented", Yaml.bool false) ]),
            ("audit_readiness_level", Yaml.str "Low") ]),
        ("domain_influence", Yaml.map
          [ ("access_governance", Yaml.str "Unable to determine due to processing error"),
            ("monitoring_and_audit",
              Yaml.str "Unable to determine due to processing error") ]),
        ("assessment_rationale", Yaml.seq
          [Yaml.str ("Agent processing error: " ++ msg)]),
        ("confidence_level", Yaml.str "Low") ]
      (by simp) (by rfl)
  · intro t d hd hm
    obtain ⟨kvs, hdk, hne, hwf⟩ := decode_map_wf t d hd hm
    rw [hdk]
    exact decode_encode_wf kvs hne hwf

/-- C7, witness: round-trip of the fallback document at a concrete
upstream error body, and of a concrete decoded mapping. -/
theorem claim7_witness :
    decode (encode (fallbackDoc "Groq API error: boom"))
        = .ok (fallbackDoc "Groq API error: boom") ∧
    decode (encode (Yaml.map [("alpha", Yaml.str "beta")]))
        = .ok (Yaml.map [("alpha", Yaml.str "beta")]) :=
  ⟨claim7_roundtrip.1 "Groq API error: boom",
   claim7_roundtrip.2 "alpha: beta" (Yaml.map [("alpha", Yaml.str "beta")]) rfl rfl⟩

/-- C8: the Document Codec's encoder emits keys in insertion order at
every nesting level — the encoded text's key lines, annotated with their
indents, equal the mapping's depth-annotated key sequence in insertion
order, not sorted — and both encoding sites of the system use this
encoder: the user-turn prompt payload is the encoding of the single-key
wrapper mapping, and every successful response body is the encoding of
the assessment document. -/
theorem claim8_key_order :
    (∀ kvs : List (String × Yaml), wfEntries kvs = true →
      keyLines (encode (.map kvs)) = flattenKeys 0 kvs) ∧
    (∀ q : Yaml, userPrompt q = encode (.map [("general_question", q)])) ∧
    (∀ (req : AgentRequest) (upstream : String → UpstreamOutcome) (b : String)
        (p : Option String), assess_question req upstream = (.success b, p) →
      ∃ d : Yaml, b = encode d) := by
  refine ⟨fun kvs hwf => keyLines_encode kvs hwf, fun q => rfl, ?_⟩
  intro req upstream b p h
  unfold assess_question at h
  cases hd : decode req.general_question with
  | error e =>
      rw [hd] at h
      simp at h
  | ok w =>
      rw [hd] at h
      dsimp only at h
      cases hm : pyMember "general_question" w with
      | exn e =>
          rw [hm] at h
          simp at h
      | ok bb =>
          cases bb with
          | false =>
              rw [hm] at h
              simp at h
          | true =>
              rw [hm] at h
              dsimp only at h
              cases hg : pyGetItem w "general_question" with
              | exn e =>
                  rw [hg] at h
                  simp at h
              | ok q =>
                  rw [hg] at h
                  dsimp only at h
                  injection h with h1 h2
                  injection h1 with h3
                  exact ⟨process_with_groq q upstream, h3.symm⟩

/-- C8, witness: a two-level mapping whose insertion order differs from
alphabetical order at both levels is encoded with all its keys, nested
ones included, in insertion order. -/
theorem claim8_witness :
    keyLines (encode (.map [("b_key", Yaml.map [("z_key", Yaml.str "v1"),
          ("a_key", Yaml.str "v2")]), ("c_key", Yaml.str "v3")]))
        = [(0, "b_key"), (2, "z_key"), (2, "a_key"), (0, "c_key")] ∧
    ([(0, "b_key"), (2, "z_key"), (2, "a_key"), (0, "c_key")] : List (Nat × String))
        ≠ [(0, "b_key"), (2, "a_key"), (2, "z_key"), (0, "c_key")] := by
  constructor
  · rw [claim8_key_order.1 [("b_key", Yaml.map [("z_key", Yaml.str "v1"),
        ("a_key", Yaml.str "v2")]), ("c_key", Yaml.str "v3")] (by rfl)]
    decide
  · decide

end IAMRelay
